import Mathlib

/-!
# Windows-Playback-Visualizer: sample pipeline and hand-off queue

A shallow embedding of `src/overlay.cpp` (the render-side sample pipeline:
`convert_samples_to_points`, `map_points_to_window_range`,
`compress_points_with_duplicate_x`, `add_points_to_graph`, `process_samples`)
and of `src/ThreadSafeQueue.h` (`enqueue` / `dequeue`), followed by theorems
about them.

Modelling conventions.

* `std::vector<T>` is a `List`; a function that mutates a vector through a
  pointer returns the new contents.
* `LONG` / `int` values are `ℤ`.  The one place where the source narrows a
  `size_t` to `int` (`int num_points = points->size()`) is modelled with
  `toInt32`.
* `float` and `double` values are the rationals they denote.  Every
  floating-point operation of the source is the exact operation followed by
  rounding to the format (`binary32` for `float`, `binary64` for `double`),
  round-to-nearest, ties-to-even, with gradual underflow.  Overflow to
  infinity and NaN are not represented: the exponent range is unbounded above.
* Reading `(*points)[0]` of an empty vector is undefined; the model returns
  `none` there.
-/

namespace Overlay

/-! ## Compile-time constants (`overlay.cpp`, lines 3-16) -/

def DISPLAY_LFT : ℤ := 1201
def DISPLAY_RGT : ℤ := 1544
def DISPLAY_TOP : ℤ := 666
def DISPLAY_BOT : ℤ := 340
def WINDOW_SIZE : ℕ := 400
def NUM_WINDOWS : ℤ := 20
def WAVE_SCALAR : ℤ := 100

/-- The macro `floor((DISPLAY_RGT - DISPLAY_LFT) / NUM_WINDOWS)`: an `int` division whose
quotient is then passed through `floor`, so the value is the truncated quotient. -/
def COMP_WINDOW_SIZE : ℕ := ((DISPLAY_RGT - DISPLAY_LFT) / NUM_WINDOWS).toNat

/-! ## Floating-point arithmetic -/

/-- Largest `e` with `b * 2 ^ e ≤ a`, searched upwards by doubling `b` (for `0 < b ≤ a`). -/
def floorLog2Aux : ℕ → ℕ → ℕ → ℕ
  | 0, _, _ => 0
  | fuel + 1, a, b => if a < 2 * b then 0 else floorLog2Aux fuel a (2 * b) + 1

/-- Smallest `k` with `b ≤ a * 2 ^ k`, searched upwards by doubling `a` (for `0 < a`). -/
def ceilLog2Aux : ℕ → ℕ → ℕ → ℕ
  | 0, _, _ => 0
  | fuel + 1, a, b => if b ≤ a then 0 else ceilLog2Aux fuel (2 * a) b + 1

/-- Binary exponent of a non-zero rational: the `e` with `2 ^ e ≤ |q| < 2 ^ (e + 1)`. -/
def binExp (q : ℚ) : ℤ :=
  if q.den ≤ q.num.natAbs then (floorLog2Aux q.num.natAbs q.num.natAbs q.den : ℤ)
  else -(ceilLog2Aux q.den q.num.natAbs q.den : ℤ)

/-- Round to the nearest integer, ties to the even one. -/
def roundNE (q : ℚ) : ℤ :=
  if q - ⌊q⌋ < 1 / 2 then ⌊q⌋
  else if 1 / 2 < q - ⌊q⌋ then ⌊q⌋ + 1
  else if ⌊q⌋ % 2 = 0 then ⌊q⌋ else ⌊q⌋ + 1

/-- Exponent of the unit in the last place of `q` in a format with `p` significand bits and
least normal exponent `emin`. -/
def ulpExp (p : ℕ) (emin : ℤ) (q : ℚ) : ℤ := max (binExp q) emin - ((p : ℤ) - 1)

/-- Round a non-negative magnitude to `p` significand bits. -/
def roundMag (p : ℕ) (emin : ℤ) (q : ℚ) : ℚ :=
  if q = 0 then 0 else roundNE (q / 2 ^ ulpExp p emin q) * 2 ^ ulpExp p emin q

/-- Round-to-nearest-even into the binary format with `p` significand bits and least normal
exponent `emin` (sign and magnitude). -/
def roundFloat (p : ℕ) (emin : ℤ) (q : ℚ) : ℚ :=
  if q < 0 then -roundMag p emin (-q) else roundMag p emin q

/-- Rounding to `float` (IEEE-754 binary32). -/
def binary32 (q : ℚ) : ℚ := roundFloat 24 (-126) q

/-- Rounding to `double` (IEEE-754 binary64). -/
def binary64 (q : ℚ) : ℚ := roundFloat 53 (-1022) q

/-- Conversion of an integer to `float`. -/
def intToFloat (z : ℤ) : ℚ := binary32 z

/-- Conversion of an integer to `double`. -/
def intToDouble (z : ℤ) : ℚ := binary64 z

/-- The function `lround`: nearest integer, halfway cases away from zero. -/
def lround (q : ℚ) : ℤ := if 0 ≤ q then ⌊q + 1 / 2⌋ else -⌊-q + 1 / 2⌋

/-- Conversion of a `size_t` to `int` (reduction modulo `2 ^ 32` into the signed range). -/
def toInt32 (z : ℤ) : ℤ := (z + 2 ^ 31) % 2 ^ 32 - 2 ^ 31

/-! ## The sample pipeline (`overlay.cpp`, lines 284-365) -/

/-- The WinAPI `POINT`. -/
structure POINT where
  x : ℤ
  y : ℤ
  deriving DecidableEq

/-- The local `center_line` of `convert_samples_to_points`:
`lround(0.5 * (DISPLAY_TOP - DISPLAY_BOT) + DISPLAY_BOT)`, evaluated in `double`. -/
def center_line : ℤ :=
  lround (binary64 (binary64 (1 / 2 * intToDouble (DISPLAY_TOP - DISPLAY_BOT))
    + intToDouble DISPLAY_BOT))

/-- The `y` that `convert_samples_to_points` gives a sample:
`lround(WAVE_SCALAR * sample + center_line)`, the product and the sum taken in `float`. -/
def sample_y (sample : ℚ) : ℤ :=
  lround (binary32 (binary32 (intToFloat WAVE_SCALAR * sample) + intToFloat center_line))

/-- `convert_samples_to_points`: pushes one point `{0, y}` per sample onto `point_container`. -/
def convert_samples_to_points (samples : List ℚ) (point_container : List POINT) : List POINT :=
  point_container ++ samples.map (fun s => ⟨0, sample_y s⟩)

/-- The `x` that `map_points_to_window_range` writes at index `i` when the vector holds
`num_points` points: `lround(i * (float(window_range) / num_points))`, in `float`. -/
def window_x (num_points : ℤ) (i : ℕ) : ℤ :=
  lround (binary32 (intToFloat i
    * binary32 (intToFloat ((DISPLAY_RGT - DISPLAY_LFT) / NUM_WINDOWS) / intToFloat num_points)))

/-- `map_points_to_window_range`: overwrites the `x` of the points at the indices
`0 ≤ i < num_points`. -/
def map_points_to_window_range (points : List POINT) : List POINT :=
  points.enum.map (fun ip =>
    if (ip.1 : ℤ) < toInt32 points.length
    then { ip.2 with x := window_x (toInt32 points.length) ip.1 }
    else ip.2)

/-- The loop state of `compress_points_with_duplicate_x`. -/
structure CompressState where
  collapsed : List POINT
  y_sum : ℚ
  pt_count : ℤ
  x_cur : ℤ

/-- One iteration of the range-`for` of `compress_points_with_duplicate_x`. -/
def compress_step (st : CompressState) (pt : POINT) : CompressState :=
  if pt.x = st.x_cur then
    { st with y_sum := binary64 (st.y_sum + intToDouble pt.y), pt_count := st.pt_count + 1 }
  else
    { collapsed := st.collapsed ++
        [⟨st.x_cur, lround (binary64 (st.y_sum / intToDouble st.pt_count))⟩]
      y_sum := intToDouble pt.y
      pt_count := 1
      x_cur := pt.x }

/-- `compress_points_with_duplicate_x`: the new contents of `points`, or `none` for the empty
vector, whose element `0` the source reads unconditionally. -/
def compress_points_with_duplicate_x (points : List POINT) : Option (List POINT) :=
  match points with
  | [] => none
  | p :: _ => some (points.foldl compress_step ⟨[], 0, 0, p.x⟩).collapsed

/-- `add_points_to_graph`: the contents of `new_points` and of `graph_points` afterwards. -/
def add_points_to_graph (new_points graph_points : List POINT) : List POINT × List POINT :=
  (new_points,
    if ((graph_points ++ new_points).length : ℤ) > COMP_WINDOW_SIZE * NUM_WINDOWS
    then (graph_points ++ new_points).drop COMP_WINDOW_SIZE
    else graph_points ++ new_points)

/-- `process_samples`: the contents of the graph buffer `points` afterwards. -/
def process_samples (samples : List ℚ) (points : List POINT) : Option (List POINT) :=
  (compress_points_with_duplicate_x
      (map_points_to_window_range (convert_samples_to_points samples []))).map
    (fun new_points => (add_points_to_graph new_points points).2)

/-- The graph buffer after `process_samples` has been called on each window in turn. -/
def process_windows : List (List ℚ) → List POINT → Option (List POINT)
  | [], points => some points
  | w :: ws, points => (process_samples w points).bind (process_windows ws)

/-! ## The hand-off queue (`ThreadSafeQueue.h`), one thread -/

/-- The data members of `ThreadSafeQueue` that carry state: the `std::queue` (front first)
and the `isCapturing` flag. -/
structure ThreadSafeQueue (α : Type) where
  queue_ : List (List α)
  isCapturing : Bool

/-- `ThreadSafeQueue::enqueue`. -/
def ThreadSafeQueue.enqueue {α : Type} (q : ThreadSafeQueue α) (sample : List α) :
    ThreadSafeQueue α :=
  { q with queue_ := q.queue_ ++ [sample] }

/-- `ThreadSafeQueue::dequeue` run by the only thread: the returned `bool`, the contents of
the out-parameter `sample` and the queue afterwards; `none` when the call waits on the
condition variable, which no other thread is there to signal. -/
def ThreadSafeQueue.dequeue {α : Type} (q : ThreadSafeQueue α) (sample : List α) :
    Option (Bool × List α × ThreadSafeQueue α) :=
  if q.queue_.isEmpty && q.isCapturing then none
  else
    match q.queue_ with
    | [] => some (false, sample, q)
    | front :: rest => some (true, front, { q with queue_ := rest })

/-- Enqueue the windows of a list one after the other. -/
def enqueue_all {α : Type} (q : ThreadSafeQueue α) (ws : List (List α)) : ThreadSafeQueue α :=
  ws.foldl ThreadSafeQueue.enqueue q

/-- `k` successive `dequeue` calls on one out-parameter: the `bool` and the delivered window
of each call, and the queue at the end. -/
def dequeue_n {α : Type} :
    ℕ → ThreadSafeQueue α → List α → Option (List (Bool × List α) × ThreadSafeQueue α)
  | 0, q, _ => some ([], q)
  | k + 1, q, sample =>
    match q.dequeue sample with
    | none => none
    | some (b, s, q') =>
      match dequeue_n k q' s with
      | none => none
      | some (rs, q'') => some ((b, s) :: rs, q'')

/-! ## Reference descriptions used to state the theorems -/

/-- The maximal runs of consecutive points with equal `x`, in order: the runs concatenate to
the list (`join_runs_of_equal_x`), each is non-empty with one `x`
(`runs_of_equal_x_uniform_of_mem`), and neighbouring runs differ in `x`
(`runs_of_equal_x_maximal`). -/
def runs_of_equal_x : List POINT → List (List POINT)
  | [] => []
  | p :: ps =>
    match runs_of_equal_x ps with
    | (q :: g) :: gs => if p.x = q.x then (p :: q :: g) :: gs else [p] :: (q :: g) :: gs
    | _ => [[p]]

/-- The sum of the `y` of a run, accumulated in `double` from left to right. -/
def run_y_sum (g : List POINT) : ℚ :=
  g.foldl (fun acc p => binary64 (acc + intToDouble p.y)) 0

/-- The averaged point of a run: the `x` of the run, and `lround` of the `double` quotient of
the sum of its `y` by its number of points. -/
def run_point (g : List POINT) : POINT :=
  ⟨(g.headD ⟨0, 0⟩).x, lround (binary64 (run_y_sum g / intToDouble g.length))⟩

/-- Number of positions of a list of `x` at which the value differs from its predecessor,
the predecessor of the first being `x_cur`. -/
def x_changes (x_cur : ℤ) : List ℤ → ℕ
  | [] => 0
  | x :: xs => (if x = x_cur then 0 else 1) + x_changes x xs

/-! ## Floating-point arithmetic: properties of the rounding -/

theorem floorLog2Aux_spec (fuel : ℕ) : ∀ a b : ℕ, 0 < b → b ≤ a → a < b * 2 ^ fuel →
    b * 2 ^ floorLog2Aux fuel a b ≤ a ∧ a < b * 2 ^ (floorLog2Aux fuel a b + 1) := by
  induction fuel with
  | zero => intro a b _ hba h; simp at h; omega
  | succ f ih =>
    intro a b hb hba h
    unfold floorLog2Aux
    by_cases h2 : a < 2 * b
    · simp only [h2, if_true]; constructor <;> omega
    · simp only [h2, if_false]
      have h' : a < 2 * b * 2 ^ f := by rw [pow_succ] at h; linarith
      obtain ⟨h3, h4⟩ := ih a (2 * b) (by omega) (by omega) h'
      constructor
      · rw [pow_succ]; linarith
      · rw [pow_succ]; linarith

theorem ceilLog2Aux_of_le (fuel a b : ℕ) (h : b ≤ a) : ceilLog2Aux fuel a b = 0 := by
  cases fuel with
  | zero => rfl
  | succ f => simp [ceilLog2Aux, h]

theorem ceilLog2Aux_spec (fuel : ℕ) : ∀ a b : ℕ, b ≤ a * 2 ^ fuel →
    b ≤ a * 2 ^ ceilLog2Aux fuel a b ∧ (a < b → a * 2 ^ ceilLog2Aux fuel a b < 2 * b) := by
  induction fuel with
  | zero => intro a b h; simp at h; simp [ceilLog2Aux]; omega
  | succ f ih =>
    intro a b h
    unfold ceilLog2Aux
    by_cases h2 : b ≤ a
    · simp only [h2, if_true]; constructor <;> intros <;> omega
    · simp only [h2, if_false]
      have h' : b ≤ 2 * a * 2 ^ f := by rw [pow_succ] at h; linarith
      obtain ⟨h3, h4⟩ := ih (2 * a) b h'
      constructor
      · rw [pow_succ]; linarith
      · intro _
        by_cases h5 : 2 * a < b
        · have := h4 h5; rw [pow_succ]; linarith
        · rw [ceilLog2Aux_of_le f (2 * a) b (by omega)]; simp; omega

theorem abs_eq_natAbs_div_den (q : ℚ) : |q| = (q.num.natAbs : ℚ) / (q.den : ℚ) := by
  have h : q = (q.num : ℚ) / (q.den : ℚ) := (Rat.num_div_den q).symm
  have hd : (0 : ℚ) < q.den := by exact_mod_cast q.den_pos
  conv_lhs => rw [h]
  rw [abs_div, abs_of_pos hd, Nat.cast_natAbs, Int.cast_abs]

/-- The binary exponent brackets the magnitude: `2 ^ binExp q ≤ |q| < 2 ^ (binExp q + 1)`. -/
theorem binExp_spec (q : ℚ) (hq : q ≠ 0) :
    (2 : ℚ) ^ binExp q ≤ |q| ∧ |q| < (2 : ℚ) ^ (binExp q + 1) := by
  have hd : (0 : ℚ) < q.den := by exact_mod_cast q.den_pos
  have hdn : 0 < q.den := q.den_pos
  have hn : 0 < q.num.natAbs := Int.natAbs_pos.mpr (Rat.num_ne_zero.mpr hq)
  rw [abs_eq_natAbs_div_den]
  unfold binExp
  by_cases h : q.den ≤ q.num.natAbs
  · simp only [h, if_true]
    have hfuel : q.num.natAbs < q.den * 2 ^ q.num.natAbs := by
      calc q.num.natAbs < 2 ^ q.num.natAbs := Nat.lt_two_pow _
        _ ≤ q.den * 2 ^ q.num.natAbs := Nat.le_mul_of_pos_left _ hdn
    obtain ⟨h1, h2⟩ := floorLog2Aux_spec _ _ _ hdn h hfuel
    constructor
    · rw [le_div_iff₀ hd, zpow_natCast]
      have : ((q.den * 2 ^ floorLog2Aux q.num.natAbs q.num.natAbs q.den : ℕ) : ℚ)
          ≤ (q.num.natAbs : ℚ) := by exact_mod_cast h1
      push_cast at this; linarith
    · rw [div_lt_iff₀ hd]
      have : ((q.num.natAbs : ℕ) : ℚ)
          < ((q.den * 2 ^ (floorLog2Aux q.num.natAbs q.num.natAbs q.den + 1) : ℕ) : ℚ) := by
        exact_mod_cast h2
      push_cast at this
      have e : (2 : ℚ) ^ ((floorLog2Aux q.num.natAbs q.num.natAbs q.den : ℤ) + 1)
          = 2 ^ (floorLog2Aux q.num.natAbs q.num.natAbs q.den + 1) := by
        rw [← zpow_natCast]; push_cast; rfl
      rw [e]; linarith
  · simp only [h, if_false]
    have hfuel : q.den ≤ q.num.natAbs * 2 ^ q.den := by
      calc q.den ≤ 2 ^ q.den := (Nat.lt_two_pow _).le
        _ ≤ q.num.natAbs * 2 ^ q.den := Nat.le_mul_of_pos_left _ hn
    obtain ⟨h1, h2⟩ := ceilLog2Aux_spec _ _ _ hfuel
    have h2 := h2 (by omega)
    set k := ceilLog2Aux q.den q.num.natAbs q.den with hk
    have hp : (0 : ℚ) < 2 ^ k := by positivity
    have h1q : (q.den : ℚ) ≤ (q.num.natAbs : ℚ) * 2 ^ k := by exact_mod_cast h1
    have h2q : (q.num.natAbs : ℚ) * 2 ^ k < 2 * (q.den : ℚ) := by exact_mod_cast h2
    constructor
    · rw [le_div_iff₀ hd, zpow_neg, zpow_natCast, inv_mul_le_iff₀ hp]
      linarith
    · rw [div_lt_iff₀ hd]
      have e : (2 : ℚ) ^ (-(k : ℤ) + 1) = 2 / 2 ^ k := by
        rw [zpow_add₀ (by norm_num), zpow_neg, zpow_natCast, zpow_one]; field_simp
      rw [e, div_mul_eq_mul_div, lt_div_iff₀ hp]
      linarith

theorem binExp_lt_of_abs_lt (q : ℚ) (hq : q ≠ 0) (e : ℤ) (h : |q| < (2 : ℚ) ^ e) :
    binExp q < e := by
  have h1 := (binExp_spec q hq).1
  exact (zpow_lt_zpow_iff_right₀ (by norm_num : (1 : ℚ) < 2)).mp (lt_of_le_of_lt h1 h)

theorem le_binExp_of_le_abs (q : ℚ) (hq : q ≠ 0) (e : ℤ) (h : (2 : ℚ) ^ e ≤ |q|) :
    e ≤ binExp q := by
  have h2 := (binExp_spec q hq).2
  have := (zpow_lt_zpow_iff_right₀ (by norm_num : (1 : ℚ) < 2)).mp (lt_of_le_of_lt h h2)
  omega

theorem binExp_mono (q r : ℚ) (hq : q ≠ 0) (h : |q| ≤ |r|) : binExp q ≤ binExp r := by
  have hr : r ≠ 0 := by
    intro h0; rw [h0, abs_zero] at h; exact hq (abs_eq_zero.mp (le_antisymm h (abs_nonneg q)))
  exact le_binExp_of_le_abs r hr _ (le_trans (binExp_spec q hq).1 h)

theorem roundNE_intCast (z : ℤ) : roundNE (z : ℚ) = z := by
  simp [roundNE]

theorem floor_le_roundNE (q : ℚ) : ⌊q⌋ ≤ roundNE q := by
  unfold roundNE; split_ifs <;> omega

theorem roundNE_le_floor_add_one (q : ℚ) : roundNE q ≤ ⌊q⌋ + 1 := by
  unfold roundNE; split_ifs <;> omega

/-- Rounding to the nearest integer is monotone. -/
theorem roundNE_mono {q r : ℚ} (h : q ≤ r) : roundNE q ≤ roundNE r := by
  rcases lt_or_eq_of_le (Int.floor_mono h) with hlt | heq
  · calc roundNE q ≤ ⌊q⌋ + 1 := roundNE_le_floor_add_one q
      _ ≤ ⌊r⌋ := hlt
      _ ≤ roundNE r := floor_le_roundNE r
  · unfold roundNE
    rw [heq]
    split_ifs <;> first | omega | (exfalso; linarith)

/-- Rounding to the nearest integer moves a number by at most one half. -/
theorem abs_roundNE_sub_le (q : ℚ) : |(roundNE q : ℚ) - q| ≤ 1 / 2 := by
  have h1 := Int.floor_le q
  have h2 := Int.lt_floor_add_one q
  unfold roundNE
  rw [abs_le]
  split_ifs <;> push_cast <;> constructor <;> linarith

theorem roundNE_nonneg {q : ℚ} (h : 0 ≤ q) : 0 ≤ roundNE q := by
  have := roundNE_mono h
  rwa [show ((0 : ℚ)) = ((0 : ℤ) : ℚ) by norm_num, roundNE_intCast] at this

theorem roundNE_two_pow (n : ℕ) : roundNE ((2 : ℚ) ^ n) = 2 ^ n := by
  have : ((2 : ℚ) ^ n) = (((2 : ℤ) ^ n : ℤ) : ℚ) := by push_cast; rfl
  rw [this, roundNE_intCast]

theorem two_zpow_pos (e : ℤ) : (0 : ℚ) < 2 ^ e := zpow_pos (by norm_num) e

theorem roundMag_zero (p : ℕ) (emin : ℤ) : roundMag p emin 0 = 0 := by
  simp [roundMag]

theorem roundMag_nonneg (p : ℕ) (emin : ℤ) {q : ℚ} (h : 0 ≤ q) : 0 ≤ roundMag p emin q := by
  unfold roundMag
  split_ifs
  · exact le_refl 0
  · apply mul_nonneg
    · exact_mod_cast roundNE_nonneg (div_nonneg h (two_zpow_pos _).le)
    · exact (two_zpow_pos _).le

theorem ulpExp_mono (p : ℕ) (emin : ℤ) (q r : ℚ) (hq : q ≠ 0) (h : |q| ≤ |r|) :
    ulpExp p emin q ≤ ulpExp p emin r := by
  have := binExp_mono q r hq h
  unfold ulpExp
  omega

/-- Rounding of magnitudes is monotone. -/
theorem roundMag_mono (p : ℕ) (hp : 1 ≤ p) (emin : ℤ) {q r : ℚ} (hq : 0 ≤ q) (h : q ≤ r) :
    roundMag p emin q ≤ roundMag p emin r := by
  rcases eq_or_lt_of_le hq with hq0 | hqpos
  · rw [← hq0, roundMag_zero]; exact roundMag_nonneg p emin (le_trans hq h)
  have hrpos : 0 < r := lt_of_lt_of_le hqpos h
  have hq0 : q ≠ 0 := hqpos.ne'
  have hr0 : r ≠ 0 := hrpos.ne'
  have habs : |q| ≤ |r| := by rwa [abs_of_pos hqpos, abs_of_pos hrpos]
  have hk := ulpExp_mono p emin q r hq0 habs
  unfold roundMag
  simp only [hq0, hr0, if_false]
  rcases eq_or_lt_of_le hk with hkeq | hklt
  · rw [hkeq]
    apply mul_le_mul_of_nonneg_right _ (two_zpow_pos _).le
    exact_mod_cast roundNE_mono (div_le_div_of_nonneg_right h (two_zpow_pos _).le)
  · -- the two arguments lie in different binades: `2 ^ binExp r` separates the roundings
    have hsq := binExp_spec q hq0
    have hsr := binExp_spec r hr0
    rw [abs_of_pos hqpos] at hsq
    rw [abs_of_pos hrpos] at hsr
    have hkr : ulpExp p emin r = binExp r - ((p : ℤ) - 1) := by
      unfold ulpExp at hklt ⊢; omega
    have hlt : binExp q + 1 ≤ binExp r := by
      unfold ulpExp at hklt; omega
    have hkq : ulpExp p emin q ≤ binExp r := by
      have : (1 : ℤ) ≤ p := by exact_mod_cast hp
      omega
    -- lower bound for the rounding of `r`
    have hlow : (2 : ℚ) ^ binExp r ≤ roundNE (r / 2 ^ ulpExp p emin r) * 2 ^ ulpExp p emin r := by
      have e1 : (2 : ℚ) ^ binExp r = (2 : ℚ) ^ (p - 1) * 2 ^ ulpExp p emin r := by
        rw [hkr, ← zpow_natCast, ← zpow_add₀ (by norm_num)]
        congr 1
        have : ((p - 1 : ℕ) : ℤ) = (p : ℤ) - 1 := by omega
        rw [this]; ring
      rw [e1]
      apply mul_le_mul_of_nonneg_right _ (two_zpow_pos _).le
      have h3 : (2 : ℚ) ^ (p - 1) ≤ r / 2 ^ ulpExp p emin r := by
        rw [le_div_iff₀ (two_zpow_pos _), ← e1]; exact hsr.1
      have := roundNE_mono h3
      rw [roundNE_two_pow] at this
      exact_mod_cast this
    -- upper bound for the rounding of `q`
    have hupp : (roundNE (q / 2 ^ ulpExp p emin q) : ℚ) * 2 ^ ulpExp p emin q
        ≤ (2 : ℚ) ^ binExp r := by
      obtain ⟨n, hn⟩ := Int.eq_ofNat_of_zero_le (sub_nonneg.mpr hkq)
      have e2 : (2 : ℚ) ^ binExp r = (2 : ℚ) ^ n * 2 ^ ulpExp p emin q := by
        rw [← zpow_natCast, ← zpow_add₀ (by norm_num), ← hn]; congr 1; ring
      rw [e2]
      apply mul_le_mul_of_nonneg_right _ (two_zpow_pos _).le
      have h4 : q / 2 ^ ulpExp p emin q ≤ (2 : ℚ) ^ n := by
        rw [div_le_iff₀ (two_zpow_pos _), ← e2]
        calc q ≤ 2 ^ (binExp q + 1) := hsq.2.le
          _ ≤ 2 ^ binExp r := zpow_le_zpow_right₀ (by norm_num) hlt
      have := roundNE_mono h4
      rw [roundNE_two_pow] at this
      exact_mod_cast this
    exact le_trans hupp hlow

/-- Rounding moves a magnitude by at most half a unit in the last place. -/
theorem abs_roundMag_sub_le (p : ℕ) (emin : ℤ) (q : ℚ) :
    |roundMag p emin q - q| ≤ 2 ^ ulpExp p emin q / 2 := by
  unfold roundMag
  split_ifs with h0
  · rw [h0]; simp; exact (div_pos (two_zpow_pos _) (by norm_num)).le
  · have hpos := two_zpow_pos (ulpExp p emin q)
    have h := abs_roundNE_sub_le (q / 2 ^ ulpExp p emin q)
    have e : (roundNE (q / 2 ^ ulpExp p emin q) : ℚ) * 2 ^ ulpExp p emin q - q
        = ((roundNE (q / 2 ^ ulpExp p emin q) : ℚ) - q / 2 ^ ulpExp p emin q)
          * 2 ^ ulpExp p emin q := by
      field_simp
    rw [e, abs_mul, abs_of_pos hpos]
    calc |(roundNE (q / 2 ^ ulpExp p emin q) : ℚ) - q / 2 ^ ulpExp p emin q|
          * 2 ^ ulpExp p emin q ≤ 1 / 2 * 2 ^ ulpExp p emin q :=
            mul_le_mul_of_nonneg_right h hpos.le
      _ = 2 ^ ulpExp p emin q / 2 := by ring

/-- Relative error of the rounding of a magnitude in the normal range. -/
theorem roundMag_le_of_normal (p : ℕ) (emin : ℤ) {q : ℚ} (hq : 0 < q)
    (hn : (2 : ℚ) ^ emin ≤ q) : roundMag p emin q ≤ q * (1 + 1 / 2 ^ p) := by
  have hq0 : q ≠ 0 := hq.ne'
  have h := abs_roundMag_sub_le p emin q
  have he : emin ≤ binExp q := le_binExp_of_le_abs q hq0 emin (by rwa [abs_of_pos hq])
  have hk : ulpExp p emin q = binExp q + -(p : ℤ) + 1 := by unfold ulpExp; omega
  have hs := (binExp_spec q hq0).1
  rw [abs_of_pos hq] at hs
  have e : (2 : ℚ) ^ ulpExp p emin q / 2 = 2 ^ binExp q * (1 / 2 ^ p) := by
    rw [hk, zpow_add₀ (by norm_num), zpow_add₀ (by norm_num), zpow_neg, zpow_natCast, zpow_one]
    field_simp
    ring
  rw [e] at h
  have h1 := (abs_le.mp h).2
  have hp : (0 : ℚ) ≤ 1 / 2 ^ p := by positivity
  have := mul_le_mul_of_nonneg_right hs hp
  linarith

/-- A significand of at most `p` bits scaled by an exponent of the format is a fixed point. -/
theorem roundMag_mul_two_zpow (p : ℕ) (hp : 1 ≤ p) (emin : ℤ) (m : ℕ) (k : ℤ)
    (hm : m ≤ 2 ^ p) (hk : emin - ((p : ℤ) - 1) ≤ k) :
    roundMag p emin ((m : ℚ) * 2 ^ k) = (m : ℚ) * 2 ^ k := by
  rcases Nat.eq_zero_or_pos m with hm0 | hmpos
  · rw [hm0]; simp [roundMag_zero]
  have hv : (0 : ℚ) < (m : ℚ) * 2 ^ k := mul_pos (by exact_mod_cast hmpos) (two_zpow_pos k)
  have hv0 : (m : ℚ) * 2 ^ k ≠ 0 := hv.ne'
  have hp1 : (1 : ℤ) ≤ p := by exact_mod_cast hp
  -- the quotient by the unit in the last place is an integer
  have key : ∃ N : ℤ, (m : ℚ) * 2 ^ k / 2 ^ ulpExp p emin ((m : ℚ) * 2 ^ k) = (N : ℚ) := by
    rcases lt_or_eq_of_le hm with hlt | heq
    · have hb : binExp ((m : ℚ) * 2 ^ k) < p + k := by
        apply binExp_lt_of_abs_lt _ hv0
        rw [abs_of_pos hv, zpow_add₀ (by norm_num), zpow_natCast]
        apply mul_lt_mul_of_pos_right _ (two_zpow_pos k)
        exact_mod_cast hlt
      have hK : ulpExp p emin ((m : ℚ) * 2 ^ k) ≤ k := by unfold ulpExp; omega
      obtain ⟨n, hn⟩ := Int.eq_ofNat_of_zero_le (sub_nonneg.mpr hK)
      refine ⟨(m : ℤ) * 2 ^ n, ?_⟩
      rw [div_eq_iff (two_zpow_pos _).ne']
      push_cast
      rw [mul_assoc, ← zpow_natCast, ← zpow_add₀ (by norm_num), ← hn]
      congr 2; ring
    · have hb : binExp ((m : ℚ) * 2 ^ k) = p + k := by
        have hval : (m : ℚ) * 2 ^ k = 2 ^ ((p : ℤ) + k) := by
          rw [heq, zpow_add₀ (by norm_num), zpow_natCast]; push_cast; rfl
        apply le_antisymm
        · have : binExp ((m : ℚ) * 2 ^ k) < (p : ℤ) + k + 1 := by
            apply binExp_lt_of_abs_lt _ hv0
            rw [abs_of_pos hv, hval]
            exact zpow_lt_zpow_right₀ (by norm_num) (by omega)
          omega
        · apply le_binExp_of_le_abs _ hv0
          rw [abs_of_pos hv, hval]
      have hK : ulpExp p emin ((m : ℚ) * 2 ^ k) = k + 1 := by unfold ulpExp; omega
      refine ⟨2 ^ (p - 1), ?_⟩
      rw [div_eq_iff (two_zpow_pos _).ne', hK, heq]
      push_cast
      rw [← zpow_natCast, ← zpow_natCast, ← zpow_add₀ (by norm_num), ← zpow_add₀ (by norm_num)]
      congr 1
      have : ((p - 1 : ℕ) : ℤ) = (p : ℤ) - 1 := by omega
      rw [this]; ring
  obtain ⟨N, hN⟩ := key
  unfold roundMag
  simp only [hv0, if_false]
  rw [hN, roundNE_intCast, ← hN]
  field_simp

/-- A rounded magnitude is a number of the format: rounding it again changes nothing. -/
theorem roundMag_idem (p : ℕ) (hp : 1 ≤ p) (emin : ℤ) {q : ℚ} (hq : 0 ≤ q) :
    roundMag p emin (roundMag p emin q) = roundMag p emin q := by
  rcases eq_or_lt_of_le hq with hq0 | hqpos
  · rw [← hq0, roundMag_zero, roundMag_zero]
  have hq0 : q ≠ 0 := hqpos.ne'
  have hp1 : (1 : ℤ) ≤ p := by exact_mod_cast hp
  have hs := (binExp_spec q hq0).2
  rw [abs_of_pos hqpos] at hs
  have hM0 : 0 ≤ roundNE (q / 2 ^ ulpExp p emin q) :=
    roundNE_nonneg (div_nonneg hq (two_zpow_pos _).le)
  have hMp : roundNE (q / 2 ^ ulpExp p emin q) ≤ 2 ^ p := by
    have h1 : q / 2 ^ ulpExp p emin q ≤ (2 : ℚ) ^ p := by
      rw [div_le_iff₀ (two_zpow_pos _), ← zpow_natCast, ← zpow_add₀ (by norm_num)]
      refine le_trans hs.le (zpow_le_zpow_right₀ (by norm_num) ?_)
      unfold ulpExp; omega
    have := roundNE_mono h1
    rwa [roundNE_two_pow] at this
  obtain ⟨m, hm⟩ := Int.eq_ofNat_of_zero_le hM0
  have e : roundMag p emin q = (m : ℚ) * 2 ^ ulpExp p emin q := by
    unfold roundMag
    simp only [hq0, if_false]
    rw [hm]; push_cast; rfl
  rw [e]
  apply roundMag_mul_two_zpow p hp emin m _ _ (by unfold ulpExp; omega)
  rw [hm] at hMp
  exact_mod_cast hMp

theorem roundFloat_of_nonneg (p : ℕ) (emin : ℤ) {q : ℚ} (h : 0 ≤ q) :
    roundFloat p emin q = roundMag p emin q := by
  unfold roundFloat; rw [if_neg (not_lt.mpr h)]

theorem roundFloat_of_neg (p : ℕ) (emin : ℤ) {q : ℚ} (h : q < 0) :
    roundFloat p emin q = -roundMag p emin (-q) := by
  unfold roundFloat; rw [if_pos h]

theorem roundFloat_nonneg (p : ℕ) (emin : ℤ) {q : ℚ} (h : 0 ≤ q) : 0 ≤ roundFloat p emin q := by
  rw [roundFloat_of_nonneg p emin h]; exact roundMag_nonneg p emin h

/-- Rounding to a binary format is monotone. -/
theorem roundFloat_mono (p : ℕ) (hp : 1 ≤ p) (emin : ℤ) {q r : ℚ} (h : q ≤ r) :
    roundFloat p emin q ≤ roundFloat p emin r := by
  rcases lt_or_le q 0 with hq | hq
  · rcases lt_or_le r 0 with hr | hr
    · rw [roundFloat_of_neg p emin hq, roundFloat_of_neg p emin hr]
      exact neg_le_neg (roundMag_mono p hp emin (by linarith) (by linarith))
    · rw [roundFloat_of_neg p emin hq]
      have h1 := roundMag_nonneg p emin (show (0 : ℚ) ≤ -q by linarith)
      have h2 := roundFloat_nonneg p emin hr
      linarith
  · rw [roundFloat_of_nonneg p emin hq, roundFloat_of_nonneg p emin (le_trans hq h)]
    exact roundMag_mono p hp emin hq h

/-- Rounding to a binary format is idempotent. -/
theorem roundFloat_idem (p : ℕ) (hp : 1 ≤ p) (emin : ℤ) (q : ℚ) :
    roundFloat p emin (roundFloat p emin q) = roundFloat p emin q := by
  rcases lt_or_le q 0 with hq | hq
  · have h0 : 0 ≤ roundMag p emin (-q) := roundMag_nonneg p emin (by linarith)
    rw [roundFloat_of_neg p emin hq]
    rcases eq_or_lt_of_le h0 with hz | hpos
    · rw [← hz]; simp [roundFloat, roundMag_zero]
    · rw [roundFloat_of_neg p emin (by linarith), neg_neg,
        roundMag_idem p hp emin (by linarith)]
  · rw [roundFloat_of_nonneg p emin hq,
      roundFloat_of_nonneg p emin (roundMag_nonneg p emin hq), roundMag_idem p hp emin hq]

theorem binary32_mono {q r : ℚ} (h : q ≤ r) : binary32 q ≤ binary32 r :=
  roundFloat_mono 24 (by norm_num) _ h

theorem binary32_nonneg {q : ℚ} (h : 0 ≤ q) : 0 ≤ binary32 q := roundFloat_nonneg 24 _ h

theorem binary64_idem (q : ℚ) : binary64 (binary64 q) = binary64 q :=
  roundFloat_idem 53 (by norm_num) _ q

theorem binary32_le_of_normal {q : ℚ} (hq : 0 < q) (hn : (2 : ℚ) ^ (-126 : ℤ) ≤ q) :
    binary32 q ≤ q * (1 + 1 / 2 ^ 24) := by
  unfold binary32
  rw [roundFloat_of_nonneg 24 _ hq.le]
  exact roundMag_le_of_normal 24 (-126) hq hn

/-- The function `lround` is monotone. -/
theorem lround_mono {q r : ℚ} (h : q ≤ r) : lround q ≤ lround r := by
  unfold lround
  split_ifs with h1 h2 h2
  · exact Int.floor_mono (by linarith)
  · exfalso; linarith
  · have a : 0 ≤ ⌊-q + 1 / 2⌋ := Int.floor_nonneg.mpr (by linarith)
    have b : 0 ≤ ⌊r + 1 / 2⌋ := Int.floor_nonneg.mpr (by linarith)
    omega
  · have : ⌊-r + 1 / 2⌋ ≤ ⌊-q + 1 / 2⌋ := Int.floor_mono (by linarith)
    omega

theorem lround_nonneg {q : ℚ} (h : 0 ≤ q) : 0 ≤ lround q := by
  unfold lround; rw [if_pos h]; exact Int.floor_nonneg.mpr (by linarith)

theorem binary32_1 : binary32 1 = 1 := by decide!
theorem binary32_100 : binary32 100 = 100 := by decide!
theorem binary32_neg100 : binary32 (-100) = -100 := by decide!
theorem binary32_403 : binary32 403 = 403 := by decide!
theorem binary32_603 : binary32 603 = 603 := by decide!
theorem binary32_two_pow_31 : binary32 2147483648 = 2147483648 := by decide!
theorem center_line_eq : center_line = 503 := by decide!

/-! ## Floating-point arithmetic: distance to the exact value -/

theorem abs_lround_sub_le (q : ℚ) : |(lround q : ℚ) - q| ≤ 1 / 2 := by
  unfold lround
  rw [abs_le]
  split_ifs with h
  · have h1 := Int.floor_le (q + 1 / 2)
    have h2 := Int.lt_floor_add_one (q + 1 / 2)
    constructor <;> linarith
  · have h1 := Int.floor_le (-q + 1 / 2)
    have h2 := Int.lt_floor_add_one (-q + 1 / 2)
    push_cast
    constructor <;> linarith

/-- An integer within `1 / 2 + ε` of `t` is `lround t` when `t` is more than `ε` away from
every halfway point. -/
theorem eq_lround_of_abs_sub_le (x : ℤ) (t ε : ℚ) (h : |(x : ℚ) - t| ≤ 1 / 2 + ε)
    (hfar : ∀ m : ℤ, ε < |t - ((m : ℚ) + 1 / 2)|) : x = lround t := by
  have hk := abs_le.mp (abs_lround_sub_le t)
  have h1 := hfar (lround t)
  have h2 := hfar (lround t - 1)
  rw [abs_of_nonpos (by linarith [hk.1, hk.2])] at h1
  rw [abs_of_nonneg (by push_cast; linarith [hk.1, hk.2])] at h2
  push_cast at h2
  have hx := abs_le.mp h
  have hlt : (x : ℚ) < (lround t : ℚ) + 1 := by linarith [hx.1, hx.2]
  have hgt : (lround t : ℚ) - 1 < (x : ℚ) := by linarith [hx.1, hx.2]
  have hlt' : x < lround t + 1 := by exact_mod_cast hlt
  have hgt' : lround t - 1 < x := by exact_mod_cast hgt
  omega

theorem binExp_neg (q : ℚ) : binExp (-q) = binExp q := by
  simp [binExp]

theorem abs_roundFloat_sub_le (p : ℕ) (emin : ℤ) (q : ℚ) :
    |roundFloat p emin q - q| ≤ 2 ^ ulpExp p emin q / 2 := by
  rcases lt_or_le q 0 with hq | hq
  · rw [roundFloat_of_neg p emin hq]
    have h := abs_roundMag_sub_le p emin (-q)
    have e : ulpExp p emin (-q) = ulpExp p emin q := by unfold ulpExp; rw [binExp_neg]
    rw [e] at h
    have e2 : -roundMag p emin (-q) - q = -(roundMag p emin (-q) - -q) := by ring
    rw [e2, abs_neg]; exact h
  · rw [roundFloat_of_nonneg p emin hq]; exact abs_roundMag_sub_le p emin q

/-- Absolute error of a rounding below `2 ^ e`. -/
theorem abs_roundFloat_sub_le_of_lt (p : ℕ) (emin : ℤ) (q : ℚ) (e : ℤ) (he : emin < e)
    (h : |q| < 2 ^ e) : |roundFloat p emin q - q| ≤ 2 ^ (e - p) / 2 := by
  by_cases hq : q = 0
  · subst hq
    simp [roundFloat, roundMag_zero]
    exact (div_pos (two_zpow_pos _) (by norm_num)).le
  · have hb := binExp_lt_of_abs_lt q hq e h
    have hk : ulpExp p emin q ≤ e - p := by unfold ulpExp; omega
    refine le_trans (abs_roundFloat_sub_le p emin q) ?_
    apply div_le_div_of_nonneg_right _ (by norm_num)
    exact zpow_le_zpow_right₀ (by norm_num) hk

/-- Relative error of the rounding of zero or of a magnitude in the normal range. -/
theorem roundFloat_rel (p : ℕ) (emin : ℤ) {q : ℚ} (hq : 0 ≤ q)
    (hn : q = 0 ∨ (2 : ℚ) ^ emin ≤ q) :
    q * (1 - 1 / 2 ^ p) ≤ roundFloat p emin q ∧ roundFloat p emin q ≤ q * (1 + 1 / 2 ^ p) := by
  rw [roundFloat_of_nonneg p emin hq]
  rcases hn with h0 | hn
  · subst h0; simp [roundMag_zero]
  have hpos : 0 < q := lt_of_lt_of_le (two_zpow_pos emin) hn
  have hq0 : q ≠ 0 := hpos.ne'
  have h := abs_roundMag_sub_le p emin q
  have he : emin ≤ binExp q := le_binExp_of_le_abs q hq0 emin (by rwa [abs_of_pos hpos])
  have hk : ulpExp p emin q = binExp q + -(p : ℤ) + 1 := by unfold ulpExp; omega
  have hs := (binExp_spec q hq0).1
  rw [abs_of_pos hpos] at hs
  have e : (2 : ℚ) ^ ulpExp p emin q / 2 = 2 ^ binExp q * (1 / 2 ^ p) := by
    rw [hk, zpow_add₀ (by norm_num), zpow_add₀ (by norm_num), zpow_neg, zpow_natCast, zpow_one]
    field_simp
    ring
  rw [e] at h
  have h1 := abs_le.mp h
  have hp : (0 : ℚ) ≤ 1 / 2 ^ p := by positivity
  have := mul_le_mul_of_nonneg_right hs hp
  constructor <;> linarith

theorem binary32_rel {q : ℚ} (hq : 0 ≤ q) (hn : q = 0 ∨ (2 : ℚ) ^ (-126 : ℤ) ≤ q) :
    q * (1 - 1 / 2 ^ 24) ≤ binary32 q ∧ binary32 q ≤ q * (1 + 1 / 2 ^ 24) :=
  roundFloat_rel 24 (-126) hq hn

theorem intToFloat_rel (z : ℕ) :
    (z : ℚ) * (1 - 1 / 2 ^ 24) ≤ intToFloat (z : ℤ)
      ∧ intToFloat (z : ℤ) ≤ (z : ℚ) * (1 + 1 / 2 ^ 24) := by
  have h := @binary32_rel (z : ℚ) (by positivity) (by
    rcases Nat.eq_zero_or_pos z with h | h
    · left; simp [h]
    · right
      have h1 : (1 : ℚ) ≤ z := by exact_mod_cast h
      have h2 : (2 : ℚ) ^ (-126 : ℤ) ≤ 1 := by
        have := zpow_le_zpow_right₀ (by norm_num : (1 : ℚ) ≤ 2) (show (-126 : ℤ) ≤ 0 by norm_num)
        simpa using this
      linarith)
  simpa [intToFloat] using h

/-! ## Sample-to-point transform: auxiliary facts -/

theorem intToFloat_WAVE_SCALAR : intToFloat WAVE_SCALAR = 100 := by decide!

theorem intToFloat_center_line : intToFloat center_line = 503 := by decide!

theorem sample_y_eq (s : ℚ) : sample_y s = lround (binary32 (binary32 (100 * s) + 503)) := by
  unfold sample_y; rw [intToFloat_WAVE_SCALAR, intToFloat_center_line]

theorem sample_y_bounds (s : ℚ) (h1 : -1 ≤ s) (h2 : s ≤ 1) :
    403 ≤ sample_y s ∧ sample_y s ≤ 603 := by
  rw [sample_y_eq]
  have a1 : binary32 (-100) ≤ binary32 (100 * s) := binary32_mono (by linarith)
  have a2 : binary32 (100 * s) ≤ binary32 100 := binary32_mono (by linarith)
  rw [binary32_neg100] at a1
  rw [binary32_100] at a2
  have b1 : binary32 403 ≤ binary32 (binary32 (100 * s) + 503) := binary32_mono (by linarith)
  have b2 : binary32 (binary32 (100 * s) + 503) ≤ binary32 603 := binary32_mono (by linarith)
  rw [binary32_403] at b1
  rw [binary32_603] at b2
  have c1 := lround_mono b1
  have c2 := lround_mono b2
  have d1 : lround 403 = 403 := by decide!
  have d2 : lround 603 = 603 := by decide!
  omega

/-- The `y` of a sample in `[-1, 1]` is the nearest integer to `100 * sample + 503` up to
the rounding of the two `float` operations. -/
theorem sample_y_accuracy (s : ℚ) (h1 : -1 ≤ s) (h2 : s ≤ 1) :
    |(sample_y s : ℚ) - (100 * s + 503)| ≤ 1 / 2 + 1 / 2 ^ 14 := by
  rw [sample_y_eq]
  have a1 : binary32 (-100) ≤ binary32 (100 * s) := binary32_mono (by linarith)
  have a2 : binary32 (100 * s) ≤ binary32 100 := binary32_mono (by linarith)
  rw [binary32_neg100] at a1
  rw [binary32_100] at a2
  have e1 : |binary32 (100 * s) - 100 * s| ≤ 2 ^ ((7 : ℤ) - (24 : ℕ)) / 2 := by
    apply abs_roundFloat_sub_le_of_lt 24 (-126) _ 7 (by norm_num)
    rw [abs_lt]; constructor <;> norm_num <;> linarith
  have e2 : |binary32 (binary32 (100 * s) + 503) - (binary32 (100 * s) + 503)|
      ≤ 2 ^ ((10 : ℤ) - (24 : ℕ)) / 2 := by
    apply abs_roundFloat_sub_le_of_lt 24 (-126) _ 10 (by norm_num)
    rw [abs_lt]; constructor <;> norm_num <;> linarith
  have e3 := abs_lround_sub_le (binary32 (binary32 (100 * s) + 503))
  have n1 : (2 : ℚ) ^ ((7 : ℤ) - (24 : ℕ)) / 2 = 1 / 2 ^ 18 := by
    norm_num [zpow_neg]
  have n2 : (2 : ℚ) ^ ((10 : ℤ) - (24 : ℕ)) / 2 = 1 / 2 ^ 15 := by
    norm_num [zpow_neg]
  rw [n1] at e1
  rw [n2] at e2
  rw [abs_le] at e1 e2 e3 ⊢
  constructor <;> norm_num at e1 e2 e3 ⊢ <;> linarith

/-! ## Window-range mapper: auxiliary facts -/

theorem COMP_WINDOW_SIZE_eq : COMP_WINDOW_SIZE = 17 := by decide

theorem toInt32_of_lt (n : ℕ) (h : n < 2 ^ 31) : toInt32 (n : ℤ) = n := by
  unfold toInt32
  have h' : (n : ℤ) < 2147483648 := by exact_mod_cast h
  norm_num
  omega

theorem intToFloat_window_range : intToFloat ((DISPLAY_RGT - DISPLAY_LFT) / NUM_WINDOWS) = 17 := by
  decide!

theorem intToFloat_mono {a b : ℤ} (h : a ≤ b) : intToFloat a ≤ intToFloat b :=
  binary32_mono (by exact_mod_cast h)

theorem intToFloat_nonneg {a : ℤ} (h : 0 ≤ a) : 0 ≤ intToFloat a :=
  binary32_nonneg (by exact_mod_cast h)

theorem window_x_eq (n : ℤ) (i : ℕ) :
    window_x n i = lround (binary32 (intToFloat i * binary32 (17 / intToFloat n))) := by
  unfold window_x; rw [intToFloat_window_range]

/-- The scale factor `float(window_range) / num_points` is not negative. -/
theorem window_scale_nonneg (n : ℕ) : 0 ≤ binary32 (17 / intToFloat (n : ℤ)) :=
  binary32_nonneg (div_nonneg (by norm_num) (intToFloat_nonneg (by positivity)))

/-- The `x` written by the mapper does not decrease with the index. -/
theorem window_x_mono (n : ℕ) {i j : ℕ} (h : i ≤ j) : window_x n i ≤ window_x n j := by
  rw [window_x_eq, window_x_eq]
  apply lround_mono
  apply binary32_mono
  apply mul_le_mul_of_nonneg_right _ (window_scale_nonneg n)
  exact intToFloat_mono (by exact_mod_cast h)

theorem window_x_nonneg (n i : ℕ) : 0 ≤ window_x n i := by
  rw [window_x_eq]
  apply lround_nonneg
  apply binary32_nonneg
  exact mul_nonneg (intToFloat_nonneg (by positivity)) (window_scale_nonneg n)

/-- The `x` written by the mapper never exceeds the slot width 17. -/
theorem window_x_le (n i : ℕ) (hn : 0 < n) (hn31 : n < 2 ^ 31) (hi : i < n) :
    window_x n i ≤ 17 := by
  rw [window_x_eq]
  have hN1 : 1 ≤ intToFloat (n : ℤ) := by
    have := intToFloat_mono (show (1 : ℤ) ≤ n by exact_mod_cast hn)
    unfold intToFloat at this ⊢
    simpa [binary32_1] using this
  have hN2 : intToFloat (n : ℤ) ≤ 2147483648 := by
    have := intToFloat_mono (show (n : ℤ) ≤ 2147483648 by exact_mod_cast hn31.le)
    unfold intToFloat at this ⊢
    simpa [binary32_two_pow_31] using this
  have hNpos : 0 < intToFloat (n : ℤ) := by linarith
  have hI : intToFloat (i : ℤ) ≤ intToFloat (n : ℤ) := intToFloat_mono (by exact_mod_cast hi.le)
  have hI0 : 0 ≤ intToFloat (i : ℤ) := intToFloat_nonneg (by positivity)
  have hq : 0 < 17 / intToFloat (n : ℤ) := div_pos (by norm_num) hNpos
  have hnorm : (2 : ℚ) ^ (-126 : ℤ) ≤ 17 / intToFloat (n : ℤ) := by
    rw [le_div_iff₀ hNpos]
    calc (2 : ℚ) ^ (-126 : ℤ) * intToFloat (n : ℤ)
        ≤ (2 : ℚ) ^ (-126 : ℤ) * 2147483648 :=
          mul_le_mul_of_nonneg_left hN2 (two_zpow_pos _).le
      _ ≤ 17 := by norm_num [zpow_neg]
  have hc := binary32_le_of_normal hq hnorm
  have hprod : intToFloat (i : ℤ) * binary32 (17 / intToFloat (n : ℤ)) ≤ 69 / 4 := by
    calc intToFloat (i : ℤ) * binary32 (17 / intToFloat (n : ℤ))
        ≤ intToFloat (n : ℤ) * binary32 (17 / intToFloat (n : ℤ)) :=
          mul_le_mul_of_nonneg_right hI (window_scale_nonneg n)
      _ ≤ intToFloat (n : ℤ) * (17 / intToFloat (n : ℤ) * (1 + 1 / 2 ^ 24)) :=
          mul_le_mul_of_nonneg_left hc hNpos.le
      _ = 17 * (1 + 1 / 2 ^ 24) := by field_simp; ring
      _ ≤ 69 / 4 := by norm_num
  have h1 := lround_mono (binary32_mono hprod)
  have h2 : lround (binary32 (69 / 4)) = 17 := by decide!
  omega

/-- The mapper, element by element: the `x` is overwritten, the `y` kept. -/
theorem getElem?_map_points (points : List POINT) (h31 : points.length < 2 ^ 31) (i : ℕ) :
    (map_points_to_window_range points)[i]?
      = points[i]?.map (fun p => ⟨window_x points.length i, p.y⟩) := by
  unfold map_points_to_window_range
  rw [List.getElem?_map, List.getElem?_enum, toInt32_of_lt _ h31]
  cases hp : points[i]? with
  | none => rfl
  | some p =>
    have hi : i < points.length := by
      rcases List.getElem?_eq_some_iff.mp hp with ⟨h, _⟩; exact h
    simp [hi]

theorem length_map_points (points : List POINT) :
    (map_points_to_window_range points).length = points.length := by
  simp [map_points_to_window_range]

theorem getElem?_map_points_some (points : List POINT) (h31 : points.length < 2 ^ 31) (i : ℕ)
    (p : POINT) (h : (map_points_to_window_range points)[i]? = some p) :
    ∃ q : POINT, i < points.length ∧ p = ⟨window_x points.length i, q.y⟩ := by
  rw [getElem?_map_points points h31] at h
  cases hq : points[i]? with
  | none => rw [hq] at h; simp at h
  | some q =>
    rw [hq] at h
    simp only [Option.map_some', Option.some.injEq] at h
    rcases List.getElem?_eq_some_iff.mp hq with ⟨hlt, _⟩
    exact ⟨q, hlt, h.symm⟩

/-- Error propagation through `P = fl (I * c)`, `c = fl (17 / N)`, `I = fl i`, `N = fl n`,
each rounding having relative error at most `a - 1 = 1 - b`. -/
theorem scaled_product_bounds (a b n i N I c P : ℚ) (hb : 0 < b) (hba : b ≤ a)
    (hn : 0 < n) (hi0 : 0 ≤ i)
    (hNl : n * b ≤ N) (hNu : N ≤ n * a) (hIl : i * b ≤ I) (hIu : I ≤ i * a)
    (hcl : 17 / N * b ≤ c) (hcu : c ≤ 17 / N * a)
    (hPl : I * c * b ≤ P) (hPu : P ≤ I * c * a) :
    17 * i / n * (b ^ 3 / a) ≤ P ∧ P ≤ 17 * i / n * (a ^ 3 / b) := by
  have ha : 0 < a := lt_of_lt_of_le hb hba
  have hnb : 0 < n * b := mul_pos hn hb
  have hna : 0 < n * a := mul_pos hn ha
  have hNpos : 0 < N := lt_of_lt_of_le hnb hNl
  have hI0 : 0 ≤ I := le_trans (mul_nonneg hi0 hb.le) hIl
  have hc0 : 0 ≤ c := le_trans (mul_nonneg (div_nonneg (by norm_num) hNpos.le) hb.le) hcl
  constructor
  · have h1 : 17 / (n * a) ≤ 17 / N := div_le_div_of_nonneg_left (by norm_num) hNpos hNu
    have h2 : 17 / (n * a) * b ≤ c := le_trans (mul_le_mul_of_nonneg_right h1 hb.le) hcl
    have h3 : (i * b) * (17 / (n * a) * b) ≤ I * c :=
      mul_le_mul hIl h2 (mul_nonneg (div_nonneg (by norm_num) hna.le) hb.le) hI0
    have h4 : (i * b) * (17 / (n * a) * b) * b ≤ P :=
      le_trans (mul_le_mul_of_nonneg_right h3 hb.le) hPl
    have e : 17 * i / n * (b ^ 3 / a) = (i * b) * (17 / (n * a) * b) * b := by
      field_simp; ring
    rw [e]; exact h4
  · have h1 : 17 / N ≤ 17 / (n * b) := div_le_div_of_nonneg_left (by norm_num) hnb hNl
    have h2 : c ≤ 17 / (n * b) * a := le_trans hcu (mul_le_mul_of_nonneg_right h1 ha.le)
    have h3 : I * c ≤ (i * a) * (17 / (n * b) * a) :=
      mul_le_mul hIu h2 hc0 (mul_nonneg hi0 ha.le)
    have h4 : P ≤ (i * a) * (17 / (n * b) * a) * a :=
      le_trans hPu (mul_le_mul_of_nonneg_right h3 ha.le)
    have e : 17 * i / n * (a ^ 3 / b) = (i * a) * (17 / (n * b) * a) * a := by
      field_simp; ring
    rw [e]; exact h4

theorem abs_sub_le_of_scaled (t P A B e : ℚ) (ht : t ≤ 17) (hB1 : B ≤ 1) (hA1 : 1 ≤ A)
    (hlo : t * B ≤ P) (hup : P ≤ t * A) (hA : 17 * (A - 1) ≤ e) (hB : 17 * (1 - B) ≤ e) :
    |P - t| ≤ e := by
  have h1 := mul_le_mul_of_nonneg_right ht (sub_nonneg.mpr hA1)
  have h2 := mul_le_mul_of_nonneg_right ht (sub_nonneg.mpr hB1)
  rw [abs_le]
  constructor <;> linarith

/-- The `x` written at index `i` is the nearest integer to `17 * i / n` up to the rounding of
the `float` operations. -/
theorem window_x_accuracy (n i : ℕ) (hn : 0 < n) (hn31 : n < 2 ^ 31) (hi : i < n) :
    |(window_x n i : ℚ) - 17 * i / n| ≤ 1 / 2 + 1 / 2 ^ 17 := by
  rw [window_x_eq]
  have hnq : (0 : ℚ) < n := by exact_mod_cast hn
  have hn31q : (n : ℚ) ≤ 2147483648 := by exact_mod_cast hn31.le
  have hiq : (i : ℚ) ≤ n := by exact_mod_cast hi.le
  have hi0 : (0 : ℚ) ≤ i := by positivity
  obtain ⟨hNl, hNu⟩ := intToFloat_rel n
  obtain ⟨hIl, hIu⟩ := intToFloat_rel i
  have hNpos : 0 < intToFloat ((n : ℕ) : ℤ) := by
    refine lt_of_lt_of_le (mul_pos hnq (by norm_num)) hNl
  have hN32 : intToFloat ((n : ℕ) : ℤ) ≤ 4294967296 := by
    refine le_trans hNu ?_
    have : (n : ℚ) * (1 + 1 / 2 ^ 24) ≤ 2147483648 * (1 + 1 / 2 ^ 24) :=
      mul_le_mul_of_nonneg_right hn31q (by norm_num)
    refine le_trans this (by norm_num)
  have hq28 : (1 : ℚ) / 2 ^ 28 ≤ 17 / intToFloat ((n : ℕ) : ℤ) := by
    rw [le_div_iff₀ hNpos]
    have : (1 : ℚ) / 2 ^ 28 * intToFloat ((n : ℕ) : ℤ) ≤ 1 / 2 ^ 28 * 4294967296 :=
      mul_le_mul_of_nonneg_left hN32 (by norm_num)
    refine le_trans this (by norm_num)
  have hsmall : (2 : ℚ) ^ (-126 : ℤ) ≤ 1 / 2 ^ 30 := by
    norm_num [zpow_neg]
  obtain ⟨hcl, hcu⟩ := @binary32_rel (17 / intToFloat ((n : ℕ) : ℤ))
    (div_nonneg (by norm_num) hNpos.le)
    (Or.inr (le_trans hsmall (le_trans (by norm_num) hq28)))
  have hc29 : (1 : ℚ) / 2 ^ 29 ≤ binary32 (17 / intToFloat ((n : ℕ) : ℤ)) := by
    refine le_trans ?_ hcl
    have : (1 : ℚ) / 2 ^ 28 * (1 - 1 / 2 ^ 24)
        ≤ 17 / intToFloat ((n : ℕ) : ℤ) * (1 - 1 / 2 ^ 24) :=
      mul_le_mul_of_nonneg_right hq28 (by norm_num)
    refine le_trans (by norm_num) this
  have hI0 : 0 ≤ intToFloat ((i : ℕ) : ℤ) := intToFloat_nonneg (by positivity)
  have hprod : intToFloat ((i : ℕ) : ℤ) * binary32 (17 / intToFloat ((n : ℕ) : ℤ)) = 0
      ∨ (2 : ℚ) ^ (-126 : ℤ)
        ≤ intToFloat ((i : ℕ) : ℤ) * binary32 (17 / intToFloat ((n : ℕ) : ℤ)) := by
    rcases Nat.eq_zero_or_pos i with h0 | hpos
    · left
      subst h0
      have : intToFloat ((0 : ℕ) : ℤ) = 0 := by decide!
      rw [this, zero_mul]
    · right
      have h1 : (1 : ℚ) ≤ i := by exact_mod_cast hpos
      have h2 : (1 : ℚ) / 2 ≤ intToFloat ((i : ℕ) : ℤ) := by
        refine le_trans ?_ hIl
        have : (1 : ℚ) * (1 - 1 / 2 ^ 24) ≤ i * (1 - 1 / 2 ^ 24) :=
          mul_le_mul_of_nonneg_right h1 (by norm_num)
        refine le_trans (by norm_num) this
      have h3 : (1 : ℚ) / 2 * (1 / 2 ^ 29)
          ≤ intToFloat ((i : ℕ) : ℤ) * binary32 (17 / intToFloat ((n : ℕ) : ℤ)) :=
        mul_le_mul h2 hc29 (by norm_num) hI0
      refine le_trans hsmall (le_trans (by norm_num) h3)
  obtain ⟨hPl, hPu⟩ := @binary32_rel
    (intToFloat ((i : ℕ) : ℤ) * binary32 (17 / intToFloat ((n : ℕ) : ℤ)))
    (mul_nonneg hI0 (window_scale_nonneg n)) hprod
  obtain ⟨hlo, hup⟩ := scaled_product_bounds (1 + 1 / 2 ^ 24) (1 - 1 / 2 ^ 24) n i _ _ _ _
    (by norm_num) (by norm_num) hnq hi0 hNl hNu hIl hIu hcl hcu hPl hPu
  have hround := abs_lround_sub_le
    (binary32 (intToFloat ((i : ℕ) : ℤ) * binary32 (17 / intToFloat ((n : ℕ) : ℤ))))
  have ht17 : (17 : ℚ) * i / n ≤ 17 := by
    rw [div_le_iff₀ hnq]; linarith
  have hdist := abs_sub_le_of_scaled _ _ _ _ (1 / 2 ^ 17) ht17 (by norm_num) (by norm_num)
    hlo hup (by norm_num) (by norm_num)
  rw [abs_le] at hround hdist ⊢
  constructor <;> linarith [hround.1, hround.2, hdist.1, hdist.2]

/-- For the 400-point windows of the program the `x` is the exactly rounded quotient. -/
theorem window_x_400_exact :
    ∀ i : ℕ, i < 400 → window_x (400 : ℕ) i = lround (17 * (i : ℚ) / 400) := by
  decide!

/-! ## The compressor: auxiliary facts -/

/-- The compressor pushes one point at every change of `x`. -/
theorem length_foldl_compress_step (pts : List POINT) : ∀ st : CompressState,
    (pts.foldl compress_step st).collapsed.length
      = st.collapsed.length + x_changes st.x_cur (pts.map (·.x)) := by
  induction pts with
  | nil => intro st; simp [x_changes]
  | cons p ps ih =>
    intro st
    rw [List.foldl_cons, ih]
    by_cases h : p.x = st.x_cur
    · simp [compress_step, x_changes, h]
    · simp [compress_step, x_changes, h]; omega

/-- A non-decreasing list of `x` between `c` and `B` changes value at most `B - c` times. -/
theorem x_changes_le (B : ℤ) (xs : List ℤ) : ∀ c : ℤ, (∀ x ∈ xs, c ≤ x ∧ x ≤ B) → c ≤ B →
    xs.Pairwise (· ≤ ·) → (x_changes c xs : ℤ) ≤ B - c := by
  induction xs with
  | nil => intro c _ hc _; simp [x_changes]; omega
  | cons x xs ih =>
    intro c hb hc hp
    have hx := hb x (List.mem_cons_self _ _)
    rw [List.pairwise_cons] at hp
    have := ih x (fun y hy => ⟨hp.1 y hy, (hb y (List.mem_cons_of_mem _ hy)).2⟩) hx.2 hp.2
    unfold x_changes
    split_ifs with h
    · subst h; push_cast; omega
    · push_cast; omega

theorem runs_of_equal_x_cons (p : POINT) (ps : List POINT) :
    ∃ g gs, runs_of_equal_x (p :: ps) = (p :: g) :: gs := by
  unfold runs_of_equal_x
  split
  · split_ifs
    · exact ⟨_, _, rfl⟩
    · exact ⟨_, _, rfl⟩
  · exact ⟨_, _, rfl⟩

theorem runs_of_equal_x_uniform (c : ℤ) (p : POINT) (ps : List POINT) :
    (∀ q ∈ p :: ps, q.x = c) → runs_of_equal_x (p :: ps) = [p :: ps] := by
  induction ps generalizing p with
  | nil => intro _; simp [runs_of_equal_x]
  | cons q qs ih =>
    intro h
    have hq := ih q (fun r hr => h r (List.mem_cons_of_mem _ hr))
    have hpx := h p (List.mem_cons_self _ _)
    have hqx := h q (List.mem_cons_of_mem _ (List.mem_cons_self _ _))
    rw [runs_of_equal_x, hq]
    simp [hpx, hqx]

theorem runs_of_equal_x_append (c : ℤ) (p : POINT) (ps : List POINT) (hp : p.x ≠ c)
    (a : POINT) (cur : List POINT) :
    (∀ q ∈ a :: cur, q.x = c) →
    runs_of_equal_x ((a :: cur) ++ p :: ps) = (a :: cur) :: runs_of_equal_x (p :: ps) := by
  induction cur generalizing a with
  | nil =>
    intro h
    have hax := h a (List.mem_cons_self _ _)
    obtain ⟨g, gs, hg⟩ := runs_of_equal_x_cons p ps
    show runs_of_equal_x (a :: p :: ps) = _
    rw [runs_of_equal_x, hg]
    have : a.x ≠ p.x := by rw [hax]; exact fun e => hp e.symm
    simp [this]
  | cons b bs ih =>
    intro h
    have hb := ih b (fun r hr => h r (List.mem_cons_of_mem _ hr))
    have hax := h a (List.mem_cons_self _ _)
    have hbx := h b (List.mem_cons_of_mem _ (List.mem_cons_self _ _))
    show runs_of_equal_x (a :: ((b :: bs) ++ p :: ps)) = _
    rw [runs_of_equal_x, hb]
    simp [hax, hbx]

theorem length_runs_of_equal_x_le (pts : List POINT) :
    (runs_of_equal_x pts).length ≤ pts.length := by
  induction pts with
  | nil => simp [runs_of_equal_x]
  | cons p ps ih =>
    unfold runs_of_equal_x
    split
    · rename_i q g gs heq
      rw [heq] at ih
      split_ifs <;> simp at ih ⊢ <;> omega
    · simp

theorem run_y_sum_singleton (p : POINT) : run_y_sum [p] = intToDouble p.y := by
  simp [run_y_sum, intToDouble, binary64_idem]

theorem run_y_sum_append_singleton (g : List POINT) (p : POINT) :
    run_y_sum (g ++ [p]) = binary64 (run_y_sum g + intToDouble p.y) := by
  simp [run_y_sum, List.foldl_append]

/-- Loop invariant of the compressor: with `cur` the points of the run being accumulated,
the scan of the remaining points emits the averaged point of every run but the last. -/
theorem foldl_compress_step_runs (rest : List POINT) :
    ∀ (acc : List POINT) (a : POINT) (cur : List POINT), (∀ q ∈ a :: cur, q.x = a.x) →
      (rest.foldl compress_step
          ⟨acc, run_y_sum (a :: cur), ((a :: cur).length : ℤ), a.x⟩).collapsed
        = acc ++ (runs_of_equal_x ((a :: cur) ++ rest)).dropLast.map run_point := by
  induction rest with
  | nil =>
    intro acc a cur h
    rw [List.append_nil, runs_of_equal_x_uniform a.x a cur h]
    simp
  | cons p ps ih =>
    intro acc a cur h
    rw [List.foldl_cons]
    by_cases hx : p.x = a.x
    · have hstep : compress_step ⟨acc, run_y_sum (a :: cur), ((a :: cur).length : ℤ), a.x⟩ p
          = ⟨acc, run_y_sum (a :: (cur ++ [p])), ((a :: (cur ++ [p])).length : ℤ), a.x⟩ := by
        rw [← List.cons_append, run_y_sum_append_singleton]
        simp [compress_step, hx]
      rw [hstep, ih acc a (cur ++ [p])]
      · simp
      · intro q hq
        simp only [List.mem_cons, List.mem_append, List.not_mem_nil, or_false] at hq
        rcases hq with rfl | hq | rfl
        · rfl
        · exact h q (List.mem_cons_of_mem _ hq)
        · exact hx
    · have hstep : compress_step ⟨acc, run_y_sum (a :: cur), ((a :: cur).length : ℤ), a.x⟩ p
          = ⟨acc ++ [run_point (a :: cur)], run_y_sum [p], (([p] : List POINT).length : ℤ),
              p.x⟩ := by
        rw [run_y_sum_singleton]
        simp [compress_step, hx, run_point]
      rw [hstep, ih (acc ++ [run_point (a :: cur)]) p [] (by simp)]
      rw [runs_of_equal_x_append a.x p ps hx a cur h]
      obtain ⟨g, gs, hg⟩ := runs_of_equal_x_cons p ps
      simp [hg, List.dropLast]

/-- The compressor returns the averaged points of all runs but the last. -/
theorem compress_eq_runs (p : POINT) (ps : List POINT) :
    compress_points_with_duplicate_x (p :: ps)
      = some ((runs_of_equal_x (p :: ps)).dropLast.map run_point) := by
  have hstep : compress_step ⟨[], 0, 0, p.x⟩ p
      = ⟨[], run_y_sum [p], (([p] : List POINT).length : ℤ), p.x⟩ := by
    simp [compress_step, run_y_sum]
  show some ((p :: ps).foldl compress_step ⟨[], 0, 0, p.x⟩).collapsed = _
  rw [List.foldl_cons, hstep, foldl_compress_step_runs ps [] p [] (by simp)]
  simp

theorem length_compress (p : POINT) (ps : List POINT) :
    (compress_points_with_duplicate_x (p :: ps)).map List.length
      = some (x_changes p.x ((p :: ps).map (·.x))) := by
  show Option.map List.length (some ((p :: ps).foldl compress_step ⟨[], 0, 0, p.x⟩).collapsed) = _
  simp [length_foldl_compress_step, compress_step, x_changes]

/-! ## The reference description `runs_of_equal_x` is the split into maximal runs -/

theorem runs_of_equal_x_step (p : POINT) (ps : List POINT) :
    (runs_of_equal_x ps = [] ∧ ps = [] ∧ runs_of_equal_x (p :: ps) = [[p]])
    ∨ (∃ q g gs, runs_of_equal_x ps = (q :: g) :: gs ∧ p.x = q.x
        ∧ runs_of_equal_x (p :: ps) = (p :: q :: g) :: gs)
    ∨ (∃ q g gs, runs_of_equal_x ps = (q :: g) :: gs ∧ p.x ≠ q.x
        ∧ runs_of_equal_x (p :: ps) = [p] :: (q :: g) :: gs) := by
  cases ps with
  | nil => left; simp [runs_of_equal_x]
  | cons a as =>
    obtain ⟨g, gs, hg⟩ := runs_of_equal_x_cons a as
    by_cases h : p.x = a.x
    · right; left
      exact ⟨a, g, gs, hg, h, by rw [runs_of_equal_x, hg]; simp [h]⟩
    · right; right
      exact ⟨a, g, gs, hg, h, by rw [runs_of_equal_x, hg]; simp [h]⟩

/-- Concatenating the runs gives the list back. -/
theorem join_runs_of_equal_x (pts : List POINT) : (runs_of_equal_x pts).flatten = pts := by
  induction pts with
  | nil => simp [runs_of_equal_x]
  | cons p ps ih =>
    rcases runs_of_equal_x_step p ps with ⟨_, h2, h3⟩ | ⟨q, g, gs, h1, _, h3⟩ | ⟨q, g, gs, h1, _, h3⟩
    · rw [h3, h2]; simp
    · rw [h3]; rw [h1] at ih; simp at ih ⊢; exact ih
    · rw [h3]; rw [h1] at ih; simp at ih ⊢; exact ih

/-- Every run is non-empty and its points share one `x`. -/
theorem runs_of_equal_x_uniform_of_mem (pts : List POINT) :
    ∀ g ∈ runs_of_equal_x pts, g ≠ [] ∧ ∀ a ∈ g, ∀ b ∈ g, a.x = b.x := by
  induction pts with
  | nil => simp [runs_of_equal_x]
  | cons p ps ih =>
    rcases runs_of_equal_x_step p ps with ⟨_, _, h3⟩ | ⟨q, g, gs, h1, hx, h3⟩ | ⟨q, g, gs, h1, _, h3⟩
    · rw [h3]; intro g hg
      simp only [List.mem_singleton] at hg
      subst hg
      simp
    · rw [h3]; rw [h1] at ih
      intro r hr
      rw [List.mem_cons] at hr
      rcases hr with rfl | hr
      · refine ⟨by simp, ?_⟩
        have hq := (ih (q :: g) (List.mem_cons_self _ _)).2
        have hpx : ∀ b ∈ q :: g, p.x = b.x := fun b hb =>
          hx.trans (hq q (List.mem_cons_self _ _) b hb)
        intro a ha b hb
        rw [List.mem_cons] at ha hb
        rcases ha with rfl | ha <;> rcases hb with rfl | hb
        · rfl
        · exact hpx b hb
        · exact (hpx a ha).symm
        · exact hq a ha b hb
      · exact ih r (List.mem_cons_of_mem _ hr)
    · rw [h3]; rw [h1] at ih
      intro r hr
      rw [List.mem_cons] at hr
      rcases hr with rfl | hr
      · simp
      · exact ih r hr

/-- Neighbouring runs differ in `x`: no run can be extended. -/
theorem runs_of_equal_x_maximal (pts : List POINT) :
    (runs_of_equal_x pts).Chain' (fun g h => ∀ a ∈ g, ∀ b ∈ h, a.x ≠ b.x) := by
  induction pts with
  | nil => simp [runs_of_equal_x]
  | cons p ps ih =>
    have hu := runs_of_equal_x_uniform_of_mem ps
    rcases runs_of_equal_x_step p ps with ⟨_, _, h3⟩ | ⟨q, g, gs, h1, hx, h3⟩ | ⟨q, g, gs, h1, hx, h3⟩
    · rw [h3]; simp
    · rw [h3]; rw [h1] at ih hu
      cases gs with
      | nil => simp
      | cons r rs =>
        rw [List.chain'_cons] at ih ⊢
        refine ⟨?_, ih.2⟩
        intro a ha b hb
        rw [List.mem_cons] at ha
        rcases ha with rfl | ha
        · rw [hx]; exact ih.1 q (List.mem_cons_self _ _) b hb
        · exact ih.1 a ha b hb
    · rw [h3]; rw [h1] at ih hu
      rw [List.chain'_cons]
      refine ⟨?_, ih⟩
      intro a ha b hb
      simp only [List.mem_singleton] at ha
      subst ha
      have := (hu (q :: g) (List.mem_cons_self _ _)).2 q (List.mem_cons_self _ _) b hb
      rw [← this]; exact hx

/-! ## The compressor: the average of a run of `LONG` values is exact -/

theorem binary64_natCast (m : ℕ) (h : m ≤ 2 ^ 53) : binary64 (m : ℚ) = m := by
  unfold binary64
  rw [roundFloat_of_nonneg 53 _ (by positivity)]
  have := roundMag_mul_two_zpow 53 (by norm_num) (-1022) m 0 h (by norm_num)
  simpa using this

theorem binary64_intCast (z : ℤ) (h : |z| ≤ 2 ^ 53) : binary64 (z : ℚ) = z := by
  rcases le_or_lt 0 z with hz | hz
  · obtain ⟨m, rfl⟩ := Int.eq_ofNat_of_zero_le hz
    rw [abs_of_nonneg hz] at h
    have := binary64_natCast m (by exact_mod_cast h)
    simpa using this
  · obtain ⟨m, hm⟩ := Int.eq_ofNat_of_zero_le (show 0 ≤ -z by omega)
    rw [abs_of_neg hz, hm] at h
    have h1 := binary64_natCast m (by exact_mod_cast h)
    have hz' : (z : ℚ) = -(m : ℚ) := by
      have : z = -(m : ℤ) := by omega
      rw [this]; push_cast; rfl
    have hneg : (z : ℚ) < 0 := by exact_mod_cast hz
    unfold binary64 at h1 ⊢
    rw [roundFloat_of_neg 53 _ hneg, hz', neg_neg]
    rw [roundFloat_of_nonneg 53 _ (by positivity)] at h1
    rw [h1]

theorem foldl_y_sum_exact (g : List POINT) : ∀ acc : ℤ,
    (∀ p ∈ g, |p.y| ≤ 2 ^ 31) → |acc| + 2 ^ 31 * (g.length : ℤ) ≤ 2 ^ 53 →
    g.foldl (fun (a : ℚ) p => binary64 (a + intToDouble p.y)) (acc : ℚ)
      = ((acc + (g.map POINT.y).sum : ℤ) : ℚ) := by
  induction g with
  | nil => intro acc _ _; simp
  | cons p ps ih =>
    intro acc hy hb
    have hp := hy p (List.mem_cons_self _ _)
    rw [List.length_cons] at hb
    push_cast at hb
    have habs : |acc + p.y| ≤ |acc| + |p.y| := abs_add acc p.y
    have h1 : intToDouble p.y = p.y := binary64_intCast _ (by
      have : (2 : ℤ) ^ 31 ≤ 2 ^ 53 := by norm_num
      omega)
    have h2 : binary64 (((acc + p.y : ℤ)) : ℚ) = ((acc + p.y : ℤ) : ℚ) :=
      binary64_intCast _ (by
        have : (0 : ℤ) ≤ 2 ^ 31 * (ps.length : ℤ) := by positivity
        omega)
    rw [List.foldl_cons, h1]
    have e : (acc : ℚ) + (p.y : ℚ) = ((acc + p.y : ℤ) : ℚ) := by push_cast; rfl
    rw [e, h2, ih (acc + p.y) (fun q hq => hy q (List.mem_cons_of_mem _ hq)) (by
      have : (0 : ℤ) ≤ 2 ^ 31 * (ps.length : ℤ) := by positivity
      omega)]
    simp [add_assoc]

theorem abs_sum_le (g : List POINT) (hy : ∀ p ∈ g, |p.y| ≤ 2 ^ 31) :
    |(g.map POINT.y).sum| ≤ 2 ^ 31 * (g.length : ℤ) := by
  induction g with
  | nil => simp
  | cons p ps ih =>
    have hp := hy p (List.mem_cons_self _ _)
    have := ih (fun q hq => hy q (List.mem_cons_of_mem _ hq))
    have habs : |p.y + (ps.map POINT.y).sum| ≤ |p.y| + |(ps.map POINT.y).sum| := abs_add _ _
    simp only [List.map_cons, List.sum_cons, List.length_cons]
    push_cast
    linarith

/-- Rounding an integer quotient to `double` does not move it across a halfway point. -/
theorem lround_binary64_div_of_nonneg (S c : ℕ) (hc : 0 < c) (hc53 : c ≤ 2 ^ 53)
    (hS : S < 2 ^ 52) : lround (binary64 ((S : ℚ) / c)) = lround ((S : ℚ) / c) := by
  have hcq : (0 : ℚ) < c := by exact_mod_cast hc
  have hq0 : (0 : ℚ) ≤ (S : ℚ) / c := by positivity
  have hf0 : 0 ≤ binary64 ((S : ℚ) / c) := roundFloat_nonneg 53 _ hq0
  unfold lround
  rw [if_pos hf0, if_pos hq0]
  have hk1 := Int.floor_le ((S : ℚ) / c + 1 / 2)
  have hk2 := Int.lt_floor_add_one ((S : ℚ) / c + 1 / 2)
  have hk0 : 0 ≤ ⌊(S : ℚ) / c + 1 / 2⌋ := Int.floor_nonneg.mpr (by linarith)
  obtain ⟨k, hk⟩ := Int.eq_ofNat_of_zero_le hk0
  rw [hk] at hk1 hk2 ⊢
  push_cast at hk1 hk2
  rw [Int.floor_eq_iff]
  push_cast
  have hSq : (S : ℚ) < 2 ^ 52 := by exact_mod_cast hS
  have hqS : (S : ℚ) / c ≤ S := by
    rw [div_le_iff₀ hcq]
    have : (1 : ℚ) ≤ c := by exact_mod_cast hc
    nlinarith [show (0 : ℚ) ≤ S by positivity]
  constructor
  · -- `k - 1 / 2` is a `double` below the quotient
    rcases Nat.eq_zero_or_pos k with h0 | hpos
    · subst h0; push_cast; linarith
    · have hk52 : (k : ℚ) ≤ 2 ^ 52 := by
        have h1 : (k : ℚ) < 2 ^ 52 + 1 / 2 := by linarith
        have h2 : k < 2 ^ 52 + 1 := by
          by_contra hcon
          push_neg at hcon
          have : ((2 ^ 52 + 1 : ℕ) : ℚ) ≤ k := by exact_mod_cast hcon
          push_cast at this
          linarith
        exact_mod_cast Nat.lt_succ_iff.mp h2
      have hfix : binary64 ((k : ℚ) - 1 / 2) = (k : ℚ) - 1 / 2 := by
        have hm : 2 * k - 1 ≤ 2 ^ 53 := by
          have : k ≤ 2 ^ 52 := by exact_mod_cast hk52
          omega
        have := roundMag_mul_two_zpow 53 (by norm_num) (-1022) (2 * k - 1) (-1) hm (by norm_num)
        have e : ((2 * k - 1 : ℕ) : ℚ) * 2 ^ (-1 : ℤ) = (k : ℚ) - 1 / 2 := by
          rw [Nat.cast_sub (by omega)]
          push_cast
          rw [zpow_neg, zpow_one]
          ring
        rw [e] at this
        have hnn : (0 : ℚ) ≤ (k : ℚ) - 1 / 2 := by
          have : (1 : ℚ) ≤ k := by exact_mod_cast hpos
          linarith
        unfold binary64
        rw [roundFloat_of_nonneg 53 _ hnn]
        exact this
      have hmono : binary64 ((k : ℚ) - 1 / 2) ≤ binary64 ((S : ℚ) / c) :=
        roundFloat_mono 53 (by norm_num) _ (by linarith)
      rw [hfix] at hmono
      linarith
  · -- the quotient is at least `1 / (2 * c)` below `k + 1 / 2`, more than the rounding error
    have h1 : (S : ℚ) < ((k : ℚ) + 1 / 2) * c :=
      (div_lt_iff₀ hcq).mp (by linarith)
    have h2 : ((2 * S : ℕ) : ℚ) < (((2 * k + 1) * c : ℕ) : ℚ) := by
      push_cast
      calc 2 * (S : ℚ) < 2 * (((k : ℚ) + 1 / 2) * c) := by linarith
        _ = (2 * (k : ℚ) + 1) * c := by ring
    have hint : 2 * S + 1 ≤ (2 * k + 1) * c := Nat.succ_le_of_lt (by exact_mod_cast h2)
    have hintq : 2 * (S : ℚ) + 1 ≤ (2 * (k : ℚ) + 1) * c := by exact_mod_cast hint
    have hgap : (S : ℚ) / c + 1 / (2 * c) ≤ (k : ℚ) + 1 / 2 := by
      have e : (S : ℚ) / c + 1 / (2 * c) = (2 * S + 1) / (2 * c) := by field_simp; ring
      rw [e, div_le_iff₀ (by positivity)]
      linarith
    have hnorm : (S : ℚ) / c = 0 ∨ (2 : ℚ) ^ (-1022 : ℤ) ≤ (S : ℚ) / c := by
      rcases Nat.eq_zero_or_pos S with h0 | hpos
      · left; simp [h0]
      · right
        have hS1 : (1 : ℚ) ≤ S := by exact_mod_cast hpos
        have hc53q : (c : ℚ) ≤ 2 ^ 53 := by exact_mod_cast hc53
        have hsmall : (2 : ℚ) ^ (-1022 : ℤ) ≤ 1 / 2 ^ 53 := by
          rw [zpow_neg, ← one_div]
          apply one_div_le_one_div_of_le (by positivity)
          rw [← zpow_natCast]
          exact zpow_le_zpow_right₀ (by norm_num) (by norm_num)
        refine le_trans hsmall ?_
        rw [div_le_div_iff₀ (by positivity) hcq]
        nlinarith
    have hup := (roundFloat_rel 53 (-1022) hq0 hnorm).2
    have herr : (S : ℚ) / c * (1 / 2 ^ 53) < 1 / (2 * c) := by
      rw [div_mul_div_comm, div_lt_div_iff₀ (by positivity) (by positivity)]
      nlinarith
    unfold binary64
    linarith

theorem roundFloat_neg (p : ℕ) (emin : ℤ) (q : ℚ) :
    roundFloat p emin (-q) = -roundFloat p emin q := by
  rcases lt_trichotomy q 0 with h | h | h
  · rw [roundFloat_of_neg p emin h, roundFloat_of_nonneg p emin (by linarith), neg_neg]
  · subst h; simp [roundFloat, roundMag_zero]
  · rw [roundFloat_of_neg p emin (show -q < 0 by linarith), roundFloat_of_nonneg p emin h.le,
      neg_neg]

theorem lround_neg (q : ℚ) : lround (-q) = -lround q := by
  rcases lt_trichotomy q 0 with h | h | h
  · unfold lround
    rw [if_pos (by linarith), if_neg (by linarith), neg_neg]
  · subst h
    have h0 : lround 0 = 0 := by decide!
    rw [neg_zero, h0, neg_zero]
  · unfold lround
    rw [if_neg (by linarith), if_pos h.le, neg_neg]

theorem lround_binary64_div (S : ℤ) (c : ℕ) (hc : 0 < c) (hc53 : c ≤ 2 ^ 53)
    (hS : |S| < 2 ^ 52) : lround (binary64 ((S : ℚ) / c)) = lround ((S : ℚ) / c) := by
  rcases le_or_lt 0 S with hz | hz
  · obtain ⟨m, rfl⟩ := Int.eq_ofNat_of_zero_le hz
    rw [abs_of_nonneg hz] at hS
    have := lround_binary64_div_of_nonneg m c hc hc53 (by exact_mod_cast hS)
    simpa using this
  · obtain ⟨m, hm⟩ := Int.eq_ofNat_of_zero_le (show 0 ≤ -S by omega)
    rw [abs_of_neg hz, hm] at hS
    have h1 := lround_binary64_div_of_nonneg m c hc hc53 (by exact_mod_cast hS)
    have e : (S : ℚ) / c = -((m : ℚ) / c) := by
      have : S = -(m : ℤ) := by omega
      rw [this]; push_cast; ring
    rw [e]
    unfold binary64 at h1 ⊢
    rw [roundFloat_neg, lround_neg, lround_neg, h1]

theorem run_point_y (g : List POINT) :
    (run_point g).y = lround (binary64 (run_y_sum g / intToDouble (g.length : ℤ))) := rfl

/-- For a run of `LONG` values of at most `2 ^ 20` points, the `y` of the averaged point is
the arithmetic mean of the `y` of the run, rounded to the nearest integer, halves away from
zero. -/
theorem run_point_y_exact (g : List POINT) (hne : g ≠ []) (hy : ∀ p ∈ g, |p.y| ≤ 2 ^ 31)
    (hl : g.length ≤ 2 ^ 20) :
    (run_point g).y = lround (((g.map POINT.y).sum : ℚ) / (g.length : ℚ)) := by
  have hl' : g.length ≤ 1048576 := le_trans hl (by norm_num)
  have hl53 : g.length ≤ 2 ^ 53 := le_trans hl' (by norm_num)
  have hlz : (g.length : ℤ) ≤ 1048576 := by exact_mod_cast hl'
  have hsum := abs_sum_le g hy
  have hprod : (2 : ℤ) ^ 31 * (g.length : ℤ) ≤ 2251799813685248 := by
    have := mul_le_mul_of_nonneg_left hlz (show (0 : ℤ) ≤ 2 ^ 31 by norm_num)
    exact le_trans this (by norm_num)
  have hbound : |(g.map POINT.y).sum| < 2 ^ 52 :=
    lt_of_le_of_lt (le_trans hsum hprod) (by norm_num)
  have h1 : run_y_sum g = (((g.map POINT.y).sum : ℤ) : ℚ) := by
    have := foldl_y_sum_exact g 0 hy (by
      rw [abs_zero, zero_add]
      exact le_trans hprod (by norm_num))
    rw [zero_add] at this
    rw [← this]
    simp [run_y_sum]
  have h2 : intToDouble (g.length : ℤ) = (g.length : ℚ) := by
    have := binary64_natCast g.length hl53
    unfold intToDouble
    rw [Int.cast_natCast]
    exact this
  have hpos : 0 < g.length := List.length_pos_iff_ne_nil.mpr hne
  rw [run_point_y, h1, h2]
  exact lround_binary64_div ((g.map POINT.y).sum) g.length hpos hl53 hbound

theorem run_point_x (g : List POINT) (hu : ∀ a ∈ g, ∀ b ∈ g, a.x = b.x) :
    ∀ p ∈ g, (run_point g).x = p.x := by
  intro p hp
  cases g with
  | nil => simp at hp
  | cons a as => exact hu a (List.mem_cons_self _ _) p hp

/-! ## The pipeline stages: composition -/

theorem map_x_map_points (points : List POINT) (h31 : points.length < 2 ^ 31) :
    (map_points_to_window_range points).map (·.x)
      = (List.range points.length).map (window_x points.length) := by
  apply List.ext_getElem?
  intro i
  rw [List.getElem?_map, getElem?_map_points points h31, List.getElem?_map]
  by_cases hi : i < points.length
  · rw [List.getElem?_range hi, List.getElem?_eq_getElem hi]; rfl
  · rw [List.getElem?_eq_none (by omega), List.getElem?_eq_none (by simp; omega)]; rfl

theorem pairwise_window_x (n : ℕ) :
    ((List.range n).map (window_x n)).Pairwise (· ≤ ·) := by
  rw [List.pairwise_map]
  exact (List.pairwise_lt_range n).imp (fun h => window_x_mono n h.le)

theorem length_compress_of_ne_nil (points : List POINT) (h : points ≠ []) :
    ∃ c, compress_points_with_duplicate_x points = some c
      ∧ c.length = x_changes ((points.map (·.x)).headD 0) (points.map (·.x)) := by
  cases points with
  | nil => exact absurd rfl h
  | cons p ps =>
    have := length_compress p ps
    cases hc : compress_points_with_duplicate_x (p :: ps) with
    | none => rw [hc] at this; simp at this
    | some c => rw [hc] at this; exact ⟨c, rfl, by simpa using this⟩

theorem length_convert (samples : List ℚ) (c : List POINT) :
    (convert_samples_to_points samples c).length = c.length + samples.length := by
  simp [convert_samples_to_points]

theorem window_x_zero (n : ℕ) : window_x n 0 = 0 := by
  rw [window_x_eq]
  have h : intToFloat ((0 : ℕ) : ℤ) = 0 := by decide!
  rw [h, zero_mul]
  decide!

/-- The first three stages on a non-empty window: the number of compressed points is the
number of changes of `x` along the window. -/
theorem compressed_window_length (w : List ℚ) (hw : w ≠ []) (h31 : w.length < 2 ^ 31) :
    ∃ c, compress_points_with_duplicate_x
        (map_points_to_window_range (convert_samples_to_points w [])) = some c
      ∧ c.length = x_changes 0 ((List.range w.length).map (window_x w.length)) := by
  have hlen : (convert_samples_to_points w []).length = w.length := by
    rw [length_convert]; simp
  have hpos : 0 < w.length := List.length_pos_iff_ne_nil.mpr hw
  have hne : map_points_to_window_range (convert_samples_to_points w []) ≠ [] := by
    intro h
    have := length_map_points (convert_samples_to_points w [])
    rw [h, hlen] at this
    simp at this; omega
  obtain ⟨c, hc, hl⟩ := length_compress_of_ne_nil _ hne
  refine ⟨c, hc, ?_⟩
  rw [hl, map_x_map_points _ (by rw [hlen]; exact h31), hlen]
  have hhead : ((List.range w.length).map (window_x w.length)).headD 0 = window_x w.length 0 := by
    cases hn : w.length with
    | zero => omega
    | succ k => simp [List.range_succ_eq_map]
  rw [hhead, window_x_zero]

/-- The first three stages on a non-empty window: at most 17 compressed points. -/
theorem compressed_window_le (w : List ℚ) (hw : w ≠ []) (h31 : w.length < 2 ^ 31) :
    ∃ c, compress_points_with_duplicate_x
        (map_points_to_window_range (convert_samples_to_points w [])) = some c
      ∧ c.length ≤ 17 := by
  obtain ⟨c, hc, hl⟩ := compressed_window_length w hw h31
  refine ⟨c, hc, ?_⟩
  have hpos : 0 < w.length := List.length_pos_iff_ne_nil.mpr hw
  have hmem : ∀ x ∈ (List.range w.length).map (window_x w.length), (0 : ℤ) ≤ x ∧ x ≤ 17 := by
    intro x hx
    rw [List.mem_map] at hx
    obtain ⟨i, hi, rfl⟩ := hx
    rw [List.mem_range] at hi
    exact ⟨window_x_nonneg _ _, window_x_le _ _ hpos h31 hi⟩
  have := x_changes_le 17 _ 0 hmem (by norm_num) (pairwise_window_x w.length)
  omega

/-- Along a 400-point window the `x` changes 17 times: it takes the 18 values `0, …, 17`. -/
theorem x_changes_window_400 :
    x_changes 0 ((List.range 400).map (window_x (400 : ℕ))) = 17 := by
  decide!

/-- The first three stages on a window of 400 samples: exactly 17 compressed points. -/
theorem compressed_window_400 (w : List ℚ) (h : w.length = 400) :
    ∃ c, compress_points_with_duplicate_x
        (map_points_to_window_range (convert_samples_to_points w [])) = some c
      ∧ c.length = 17 := by
  have hw : w ≠ [] := by intro h0; rw [h0] at h; simp at h
  obtain ⟨c, hc, hl⟩ := compressed_window_length w hw (by rw [h]; norm_num)
  refine ⟨c, hc, ?_⟩
  rw [hl, h, x_changes_window_400]

theorem add_points_to_graph_eq (g s : List POINT) :
    add_points_to_graph s g
      = (s, if (g ++ s).length ≤ 340 then g ++ s else (g ++ s).drop 17) := by
  unfold add_points_to_graph
  rw [COMP_WINDOW_SIZE_eq]
  have e : ((17 : ℕ) : ℤ) * NUM_WINDOWS = 340 := by decide
  rw [e]
  by_cases h : (g ++ s).length ≤ 340
  · have : ¬ (((g ++ s).length : ℤ) > 340) := by omega
    simp only [this, h, if_true, if_false]
  · have : (((g ++ s).length : ℤ) > 340) := by omega
    simp only [this, h, if_true, if_false]

theorem process_samples_of_compress (w : List ℚ) (g c : List POINT)
    (hc : compress_points_with_duplicate_x
        (map_points_to_window_range (convert_samples_to_points w [])) = some c) :
    process_samples w g
      = some (if (g ++ c).length ≤ 340 then g ++ c else (g ++ c).drop 17) := by
  unfold process_samples
  rw [hc, Option.map_some', add_points_to_graph_eq]

/-- One call keeps the cap. -/
theorem process_samples_cap (w : List ℚ) (g : List POINT) (hw : w ≠ [])
    (h31 : w.length < 2 ^ 31) (hg : g.length ≤ 340) :
    ∃ g', process_samples w g = some g' ∧ g'.length ≤ 340 := by
  obtain ⟨c, hc, hl⟩ := compressed_window_le w hw h31
  refine ⟨_, process_samples_of_compress w g c hc, ?_⟩
  split_ifs with h
  · exact h
  · rw [List.length_drop, List.length_append]; omega

/-- Any sequence of calls keeps the cap. -/
theorem process_windows_cap (windows : List (List ℚ)) : ∀ g : List POINT,
    (∀ w ∈ windows, w ≠ [] ∧ w.length < 2 ^ 31) → g.length ≤ 340 →
    ∃ g', process_windows windows g = some g' ∧ g'.length ≤ 340 := by
  induction windows with
  | nil => intro g _ hg; exact ⟨g, rfl, hg⟩
  | cons w ws ih =>
    intro g h hg
    obtain ⟨hw, h31⟩ := h w (List.mem_cons_self _ _)
    obtain ⟨g1, h1, hl1⟩ := process_samples_cap w g hw h31 hg
    obtain ⟨g2, h2, hl2⟩ := ih g1 (fun v hv => h v (List.mem_cons_of_mem _ hv)) hl1
    exact ⟨g2, by simp [process_windows, h1, h2], hl2⟩

/-- One call on a window of 400 samples moves the buffer to the next multiple of 17, up to
the cap. -/
theorem process_samples_400 (w : List ℚ) (g : List POINT) (j : ℕ) (hw : w.length = 400)
    (hg : g.length = 17 * min j 20) :
    ∃ g', process_samples w g = some g' ∧ g'.length = 17 * min (j + 1) 20 := by
  obtain ⟨c, hc, hl⟩ := compressed_window_400 w hw
  refine ⟨_, process_samples_of_compress w g c hc, ?_⟩
  split_ifs with h
  · rw [List.length_append] at h ⊢; omega
  · rw [List.length_drop, List.length_append]; rw [List.length_append] at h; omega

/-- After `k` windows of 400 samples the buffer holds `17 * min (j + k) 20` points. -/
theorem process_windows_400 (windows : List (List ℚ)) : ∀ (g : List POINT) (j : ℕ),
    (∀ w ∈ windows, w.length = 400) → g.length = 17 * min j 20 →
    ∃ g', process_windows windows g = some g'
      ∧ g'.length = 17 * min (j + windows.length) 20 := by
  induction windows with
  | nil => intro g j _ hg; exact ⟨g, rfl, by simpa using hg⟩
  | cons w ws ih =>
    intro g j h hg
    obtain ⟨g1, h1, hl1⟩ := process_samples_400 w g j (h w (List.mem_cons_self _ _)) hg
    obtain ⟨g2, h2, hl2⟩ := ih g1 (j + 1) (fun v hv => h v (List.mem_cons_of_mem _ hv)) hl1
    refine ⟨g2, by simp [process_windows, h1, h2], ?_⟩
    rw [hl2, List.length_cons]; congr 2; omega

/-! ## Hand-off queue: auxiliary facts -/

theorem queue_enqueue_all {α : Type} (ws : List (List α)) : ∀ q : ThreadSafeQueue α,
    enqueue_all q ws = ⟨q.queue_ ++ ws, q.isCapturing⟩ := by
  induction ws with
  | nil => intro q; simp [enqueue_all]
  | cons w ws ih =>
    intro q
    have := ih (q.enqueue w)
    simp only [enqueue_all, List.foldl_cons] at this ⊢
    rw [this]
    simp [ThreadSafeQueue.enqueue]

theorem dequeue_n_queue {α : Type} (capturing : Bool) (ws : List (List α)) :
    ∀ sample : List α, dequeue_n ws.length ⟨ws, capturing⟩ sample
      = some (ws.map (fun w => (true, w)), ⟨[], capturing⟩) := by
  induction ws with
  | nil => intro sample; rfl
  | cons w ws ih =>
    intro sample
    simp [dequeue_n, ThreadSafeQueue.dequeue, ih w]

/-! ## The properties C1-C10 of the specification -/

/-- C1, at the input of the specification's example: from `(0,2),(0,4),(1,10)` the compressor
leaves only `(0,3)`; the group of `x = 1`, being the last one, is never pushed. -/
theorem compress_crafted_input :
    compress_points_with_duplicate_x [⟨0, 2⟩, ⟨0, 4⟩, ⟨1, 10⟩] = some [⟨0, 3⟩] := by
  decide!

/-- C2: after the windows `ws` have been enqueued in order into an empty queue, `ws.length`
successive `dequeue` calls all return `true`, deliver exactly the windows of `ws` in the same
order, and leave the queue empty. -/
theorem dequeue_returns_enqueued_in_order {α : Type} (ws : List (List α)) (capturing : Bool)
    (sample : List α) :
    dequeue_n ws.length (enqueue_all ⟨[], capturing⟩ ws) sample
      = some (ws.map (fun w => (true, w)), ⟨[], capturing⟩) := by
  rw [queue_enqueue_all]
  exact dequeue_n_queue capturing ws sample

/-- C3: starting from the empty graph buffer, after every call of `process_samples` in a
sequence of calls on non-empty windows (of fewer than `2 ^ 31` samples, any values) the
buffer holds at most `COMP_WINDOW_SIZE * NUM_WINDOWS = 17 * 20 = 340` points. -/
theorem graph_buffer_cap (windows : List (List ℚ))
    (h : ∀ w ∈ windows, w ≠ [] ∧ w.length < 2 ^ 31) :
    (∀ k : ℕ, ∃ g, process_windows (windows.take k) [] = some g
        ∧ (g.length : ℤ) ≤ COMP_WINDOW_SIZE * NUM_WINDOWS)
      ∧ (COMP_WINDOW_SIZE : ℤ) * NUM_WINDOWS = 17 * 20 := by
  have e : (COMP_WINDOW_SIZE : ℤ) * NUM_WINDOWS = 340 := by decide
  refine ⟨?_, by rw [e]; rfl⟩
  intro k
  obtain ⟨g, hg, hl⟩ := process_windows_cap (windows.take k) []
    (fun w hw => h w (List.mem_of_mem_take hw)) (by simp)
  exact ⟨g, hg, by rw [e]; exact_mod_cast hl⟩

theorem graph_buffer_cap_witness :
    (∀ w ∈ ([[0, 1 / 2, -1], [1 / 3], [2, 2]] : List (List ℚ)), w ≠ [] ∧ w.length < 2 ^ 31)
      ∧ ∀ k : ℕ, ∃ g,
          process_windows (([[0, 1 / 2, -1], [1 / 3], [2, 2]] : List (List ℚ)).take k) []
            = some g
          ∧ (g.length : ℤ) ≤ COMP_WINDOW_SIZE * NUM_WINDOWS :=
  have h : ∀ w ∈ ([[0, 1 / 2, -1], [1 / 3], [2, 2]] : List (List ℚ)),
      w ≠ [] ∧ w.length < 2 ^ 31 := by decide!
  ⟨h, (graph_buffer_cap _ h).1⟩

/-- C4, at a window of `WINDOW_SIZE = 400` points: the point of index 399 gets `x = 17`,
which is the slot width `(DISPLAY_RGT - DISPLAY_LFT) / NUM_WINDOWS` itself, so the `x` of
that window do not all lie below the slot width. -/
theorem map_points_reaches_slot_width :
    (List.replicate 400 (⟨0, 0⟩ : POINT)).length = 400
      ∧ (map_points_to_window_range (List.replicate 400 ⟨0, 0⟩))[399]? = some ⟨17, 0⟩
      ∧ (DISPLAY_RGT - DISPLAY_LFT) / NUM_WINDOWS = 17
      ∧ ¬ (∀ p ∈ map_points_to_window_range (List.replicate 400 ⟨0, 0⟩),
            0 ≤ p.x ∧ p.x < (DISPLAY_RGT - DISPLAY_LFT) / NUM_WINDOWS) := by
  have h399 : (map_points_to_window_range (List.replicate 400 ⟨0, 0⟩))[399]? = some ⟨17, 0⟩ := by
    decide!
  have hw : (DISPLAY_RGT - DISPLAY_LFT) / NUM_WINDOWS = 17 := by decide
  refine ⟨List.length_replicate _ _, h399, hw, ?_⟩
  intro hall
  have := (hall _ (List.getElem?_mem h399)).2
  rw [hw] at this
  exact lt_irrefl _ this

/-- C4 as amended: for a list of `n` points, `0 < n < 2 ^ 31`, every point that
`map_points_to_window_range` returns has `0 ≤ x ≤ 17`, the slot width
`(DISPLAY_RGT - DISPLAY_LFT) / NUM_WINDOWS = 17` included. -/
theorem map_points_x_range (points : List POINT) (h0 : 0 < points.length)
    (h31 : points.length < 2 ^ 31) :
    (∀ p ∈ map_points_to_window_range points,
        0 ≤ p.x ∧ p.x ≤ (DISPLAY_RGT - DISPLAY_LFT) / NUM_WINDOWS)
      ∧ (DISPLAY_RGT - DISPLAY_LFT) / NUM_WINDOWS = 17 := by
  have hw : (DISPLAY_RGT - DISPLAY_LFT) / NUM_WINDOWS = 17 := by decide
  refine ⟨?_, hw⟩
  intro p hp
  rw [hw]
  obtain ⟨i, hi⟩ := List.getElem?_of_mem hp
  obtain ⟨q, hlt, rfl⟩ := getElem?_map_points_some points h31 i p hi
  exact ⟨window_x_nonneg _ _, window_x_le _ _ h0 h31 hlt⟩

theorem map_points_x_range_witness :
    0 < ([⟨5, 7⟩, ⟨1, 2⟩, ⟨9, 9⟩] : List POINT).length
      ∧ ([⟨5, 7⟩, ⟨1, 2⟩, ⟨9, 9⟩] : List POINT).length < 2 ^ 31
      ∧ (∀ p ∈ map_points_to_window_range [⟨5, 7⟩, ⟨1, 2⟩, ⟨9, 9⟩],
          0 ≤ p.x ∧ p.x ≤ (DISPLAY_RGT - DISPLAY_LFT) / NUM_WINDOWS) :=
  ⟨by decide, by decide, (map_points_x_range _ (by decide) (by decide)).1⟩

/-- C5, at a list of 1394 points: the point of index 41 gets `x = 0`, while `41 * 17 / 1394`
is exactly one half, which rounded with halves away from zero is 1, in exact arithmetic and
also when `(41 * 17) / 1394` is evaluated in `float`.  The source divides first: the `float`
quotient `17 / 1394` is `13094412 / 2 ^ 30`, just below the exact quotient, and 41 times it
rounds to the `float` `16777215 / 2 ^ 25`, just below one half. -/
theorem map_points_tie_rounds_down :
    (List.replicate 1394 (⟨0, 0⟩ : POINT)).length = 1394
      ∧ (map_points_to_window_range (List.replicate 1394 ⟨0, 0⟩))[41]? = some ⟨0, 0⟩
      ∧ (41 : ℚ) * 17 / 1394 = 1 / 2
      ∧ lround (41 * 17 / 1394) = 1
      ∧ lround (binary32 (binary32 (intToFloat 41 * intToFloat 17) / intToFloat 1394)) = 1
      ∧ binary32 (intToFloat 17 / intToFloat 1394) = 13094412 / 2 ^ 30
      ∧ binary32 (intToFloat 41 * (13094412 / 2 ^ 30)) = 16777215 / 2 ^ 25
      ∧ ¬ (∀ (i : ℕ) (p : POINT),
            (map_points_to_window_range (List.replicate 1394 ⟨0, 0⟩))[i]? = some p →
            p.x = lround ((i : ℚ) * 17 / 1394)) := by
  have h41 : (map_points_to_window_range (List.replicate 1394 ⟨0, 0⟩))[41]? = some ⟨0, 0⟩ := by
    decide!
  have hr : lround (41 * 17 / 1394) = 1 := by decide!
  refine ⟨List.length_replicate _ _, h41, by norm_num, hr, by decide!, by decide!, by decide!,
    ?_⟩
  intro hall
  have h := hall 41 ⟨0, 0⟩ h41
  have e : lround (((41 : ℕ) : ℚ) * 17 / 1394) = 1 := by
    rw [show (((41 : ℕ) : ℚ)) = 41 by norm_num]; exact hr
  rw [e] at h
  exact absurd h (by decide)

/-- C5 as amended: for a list of `n < 2 ^ 31` points, `map_points_to_window_range` keeps the
number of points and every `y`; it gives the point of index `i` the `x = lround(i * (17 / n))`,
quotient and product taken in `float` as the source does.  This `x` is at most `1 / 2 + 2 ^ -17` away
from `17 * i / n`; it is `17 * i / n` rounded to the nearest integer, halves away from zero,
whenever `17 * i / n` is more than `2 ^ -17` away from every halfway point, and for every
index when `n = WINDOW_SIZE = 400`.  The `x` do not decrease along the list. -/
theorem map_points_spec (points : List POINT) (h31 : points.length < 2 ^ 31) :
    (map_points_to_window_range points).length = points.length
      ∧ (∀ i : ℕ, (map_points_to_window_range points)[i]?
          = points[i]?.map (fun p =>
              ⟨lround (binary32 (intToFloat i * binary32 (17 / intToFloat points.length))),
                p.y⟩))
      ∧ (∀ (i : ℕ) (p : POINT), (map_points_to_window_range points)[i]? = some p →
          |(p.x : ℚ) - 17 * i / points.length| ≤ 1 / 2 + 1 / 2 ^ 17)
      ∧ (∀ (i : ℕ) (p : POINT), (map_points_to_window_range points)[i]? = some p →
          (∀ m : ℤ, 1 / 2 ^ 17 < |17 * (i : ℚ) / points.length - ((m : ℚ) + 1 / 2)|) →
          p.x = lround (17 * (i : ℚ) / points.length))
      ∧ (points.length = WINDOW_SIZE → ∀ (i : ℕ) (p : POINT),
          (map_points_to_window_range points)[i]? = some p → p.x = lround (17 * (i : ℚ) / 400))
      ∧ (∀ (i j : ℕ) (p q : POINT), i ≤ j →
          (map_points_to_window_range points)[i]? = some p →
          (map_points_to_window_range points)[j]? = some q → p.x ≤ q.x) := by
  refine ⟨length_map_points points, ?_, ?_, ?_, ?_, ?_⟩
  · intro i
    rw [getElem?_map_points points h31]
    simp only [window_x_eq]
  · intro i p hp
    obtain ⟨q, hlt, rfl⟩ := getElem?_map_points_some points h31 i p hp
    exact window_x_accuracy _ _ (by omega) h31 hlt
  · intro i p hp hfar
    obtain ⟨q, hlt, rfl⟩ := getElem?_map_points_some points h31 i p hp
    exact eq_lround_of_abs_sub_le _ _ _ (window_x_accuracy _ _ (by omega) h31 hlt) hfar
  · intro hn i p hp
    obtain ⟨q, hlt, rfl⟩ := getElem?_map_points_some points h31 i p hp
    rw [hn] at hlt ⊢
    exact window_x_400_exact i hlt
  · intro i j p q hij hp hq
    obtain ⟨a, _, rfl⟩ := getElem?_map_points_some points h31 i p hp
    obtain ⟨b, _, rfl⟩ := getElem?_map_points_some points h31 j q hq
    exact window_x_mono _ hij

theorem map_points_spec_witness :
    ([⟨5, 7⟩, ⟨1, 2⟩, ⟨9, 9⟩] : List POINT).length < 2 ^ 31
      ∧ (map_points_to_window_range [⟨5, 7⟩, ⟨1, 2⟩, ⟨9, 9⟩]).length
          = ([⟨5, 7⟩, ⟨1, 2⟩, ⟨9, 9⟩] : List POINT).length
      ∧ (∀ (i : ℕ) (p : POINT),
          (map_points_to_window_range [⟨5, 7⟩, ⟨1, 2⟩, ⟨9, 9⟩])[i]? = some p →
          |(p.x : ℚ) - 17 * i / ([⟨5, 7⟩, ⟨1, 2⟩, ⟨9, 9⟩] : List POINT).length|
            ≤ 1 / 2 + 1 / 2 ^ 17)
      ∧ (∀ (i j : ℕ) (p q : POINT), i ≤ j →
          (map_points_to_window_range [⟨5, 7⟩, ⟨1, 2⟩, ⟨9, 9⟩])[i]? = some p →
          (map_points_to_window_range [⟨5, 7⟩, ⟨1, 2⟩, ⟨9, 9⟩])[j]? = some q → p.x ≤ q.x) :=
  ⟨by decide, (map_points_spec _ (by decide)).1, (map_points_spec _ (by decide)).2.2.1,
    (map_points_spec _ (by decide)).2.2.2.2.2⟩

/-- C6: `add_points_to_graph` leaves the graph buffer equal to `g ++ s` when that has at most
`COMP_WINDOW_SIZE * NUM_WINDOWS = 340` points, and to `g ++ s` without its first
`COMP_WINDOW_SIZE = 17` points otherwise; `s` is left as it was. -/
theorem add_points_to_graph_spec (g s : List POINT) :
    add_points_to_graph s g
        = (s, if (g ++ s).length ≤ 340 then g ++ s else (g ++ s).drop 17)
      ∧ COMP_WINDOW_SIZE = 17 ∧ (COMP_WINDOW_SIZE : ℤ) * NUM_WINDOWS = 340 := by
  exact ⟨add_points_to_graph_eq g s, COMP_WINDOW_SIZE_eq, by decide⟩

/-- C7, at the sample `0.005f`, the `float` nearest to 0.005, which is `5368709 / 2 ^ 30` and
lies in `[-1, 1]`: the point gets `y = 504`, while `100 * sample + 503` is below 503.5 and
its nearest integer is 503.  The `float` product `100 * sample` is exactly one half, and the
`float` sum 503.5 is rounded away from zero. -/
theorem convert_samples_rounds_up :
    (-1 : ℚ) ≤ 5368709 / 2 ^ 30 ∧ (5368709 : ℚ) / 2 ^ 30 ≤ 1
      ∧ binary32 (5 / 1000) = 5368709 / 2 ^ 30
      ∧ convert_samples_to_points [5368709 / 2 ^ 30] [] = [⟨0, 504⟩]
      ∧ (100 : ℚ) * (5368709 / 2 ^ 30) + 503 < 503 + 1 / 2
      ∧ lround (100 * (5368709 / 2 ^ 30) + 503) = 503
      ∧ binary32 (intToFloat WAVE_SCALAR * (5368709 / 2 ^ 30)) = 1 / 2
      ∧ binary32 (1 / 2 + intToFloat center_line) = 503 + 1 / 2
      ∧ ¬ (∀ p ∈ convert_samples_to_points [5368709 / 2 ^ 30] [],
            p.y = lround ((WAVE_SCALAR : ℚ) * (5368709 / 2 ^ 30) + center_line)) := by
  have hc : convert_samples_to_points [5368709 / 2 ^ 30] [] = [⟨0, 504⟩] := by decide!
  have hr : lround ((WAVE_SCALAR : ℚ) * (5368709 / 2 ^ 30) + center_line) = 503 := by decide!
  refine ⟨by norm_num, by norm_num, by decide!, hc, by norm_num, by decide!, by decide!,
    by decide!, ?_⟩
  intro hall
  have h := hall ⟨0, 504⟩ (by rw [hc]; exact List.mem_singleton.mpr rfl)
  rw [hr] at h
  exact absurd h (by decide)

/-- C7 as amended: for samples in `[-1, 1]`, `convert_samples_to_points` fills the empty
container with one point per sample, in sample order, with
`y = lround(WAVE_SCALAR * sample + center_line)`, product and sum taken in `float` as the source does (so `y` is at most `1 / 2 + 2 ^ -14` away
from `100 * sample + 503`, and is that value rounded to the nearest integer whenever it is
more than `2 ^ -14` away from every halfway point), where
`WAVE_SCALAR = 100` and `center_line = 503`; every `y` lies in
`[center_line - WAVE_SCALAR, center_line + WAVE_SCALAR] = [403, 603]`; and a window of
`WINDOW_SIZE = 400` samples gives 400 points. -/
theorem convert_samples_to_points_spec (samples : List ℚ)
    (h : ∀ s ∈ samples, -1 ≤ s ∧ s ≤ 1) :
    convert_samples_to_points samples []
        = samples.map (fun s => ⟨0, lround (binary32 (binary32 (100 * s) + 503))⟩)
      ∧ (∀ s ∈ samples,
          |(lround (binary32 (binary32 (100 * s) + 503)) : ℚ) - (100 * s + 503)|
            ≤ 1 / 2 + 1 / 2 ^ 14)
      ∧ (∀ s ∈ samples, (∀ m : ℤ, 1 / 2 ^ 14 < |100 * s + 503 - ((m : ℚ) + 1 / 2)|) →
          lround (binary32 (binary32 (100 * s) + 503)) = lround (100 * s + 503))
      ∧ (convert_samples_to_points samples []).length = samples.length
      ∧ (∀ p ∈ convert_samples_to_points samples [],
          center_line - WAVE_SCALAR ≤ p.y ∧ p.y ≤ center_line + WAVE_SCALAR)
      ∧ WAVE_SCALAR = 100 ∧ center_line = 503
      ∧ center_line - WAVE_SCALAR = 403 ∧ center_line + WAVE_SCALAR = 603
      ∧ (samples.length = WINDOW_SIZE → (convert_samples_to_points samples []).length = 400) := by
  have hc : center_line = 503 := center_line_eq
  have hw : WAVE_SCALAR = 100 := rfl
  refine ⟨?_, ?_, ?_, ?_, ?_, hw, hc, by rw [hc, hw]; rfl, by rw [hc, hw]; rfl, ?_⟩
  · simp [convert_samples_to_points, sample_y_eq]
  · intro s hs
    rw [← sample_y_eq]
    exact sample_y_accuracy s (h s hs).1 (h s hs).2
  · intro s hs hfar
    rw [← sample_y_eq]
    exact eq_lround_of_abs_sub_le _ _ _ (sample_y_accuracy s (h s hs).1 (h s hs).2) hfar
  · simp [convert_samples_to_points]
  · intro p hp
    simp only [convert_samples_to_points, List.nil_append, List.mem_map] at hp
    obtain ⟨s, hs, rfl⟩ := hp
    have := sample_y_bounds s (h s hs).1 (h s hs).2
    rw [hc, hw]
    constructor <;> simp <;> omega
  · intro hl
    simp [convert_samples_to_points, hl, WINDOW_SIZE]

theorem convert_samples_to_points_spec_witness :
    (∀ s ∈ ([0, 1, -1, 1 / 2, -3 / 10] : List ℚ), -1 ≤ s ∧ s ≤ 1)
      ∧ convert_samples_to_points [0, 1, -1, 1 / 2, -3 / 10] []
          = ([0, 1, -1, 1 / 2, -3 / 10] : List ℚ).map
              (fun s => ⟨0, lround (binary32 (binary32 (100 * s) + 503))⟩)
      ∧ (∀ p ∈ convert_samples_to_points [0, 1, -1, 1 / 2, -3 / 10] [],
          center_line - WAVE_SCALAR ≤ p.y ∧ p.y ≤ center_line + WAVE_SCALAR) :=
  have h : ∀ s ∈ ([0, 1, -1, 1 / 2, -3 / 10] : List ℚ), -1 ≤ s ∧ s ≤ 1 := by decide!
  ⟨h, (convert_samples_to_points_spec _ h).1, (convert_samples_to_points_spec _ h).2.2.2.2.1⟩

/-- C9: when every window has exactly `WINDOW_SIZE = 400` samples (any values), the first
three stages turn each window into exactly `COMP_WINDOW_SIZE = 17` points, and, starting
from the empty graph buffer, after every call of `process_samples` the buffer holds 17 points
for each window processed so far, up to 20 windows: its length is a multiple of 17. -/
theorem window_400_fills_one_slot (windows : List (List ℚ))
    (h : ∀ w ∈ windows, w.length = WINDOW_SIZE) :
    (∀ w ∈ windows, ∃ c, compress_points_with_duplicate_x
          (map_points_to_window_range (convert_samples_to_points w [])) = some c
        ∧ c.length = COMP_WINDOW_SIZE)
      ∧ (∀ k : ℕ, ∃ g, process_windows (windows.take k) [] = some g
          ∧ g.length = 17 * min (min k windows.length) 20 ∧ 17 ∣ g.length)
      ∧ COMP_WINDOW_SIZE = 17 := by
  refine ⟨?_, ?_, COMP_WINDOW_SIZE_eq⟩
  · intro w hw
    rw [COMP_WINDOW_SIZE_eq]
    exact compressed_window_400 w (h w hw)
  · intro k
    obtain ⟨g, hg, hl⟩ := process_windows_400 (windows.take k) [] 0
      (fun w hw => h w (List.mem_of_mem_take hw)) (by simp)
    rw [List.length_take, zero_add] at hl
    exact ⟨g, hg, hl, by rw [hl]; exact Dvd.intro _ rfl⟩

theorem window_400_fills_one_slot_witness :
    (∀ w ∈ [List.replicate 400 (0 : ℚ), List.replicate 400 (1 / 2)], w.length = WINDOW_SIZE)
      ∧ (∀ w ∈ [List.replicate 400 (0 : ℚ), List.replicate 400 (1 / 2)],
          ∃ c, compress_points_with_duplicate_x
              (map_points_to_window_range (convert_samples_to_points w [])) = some c
            ∧ c.length = COMP_WINDOW_SIZE)
      ∧ ∀ k : ℕ, ∃ g,
          process_windows ([List.replicate 400 (0 : ℚ), List.replicate 400 (1 / 2)].take k) []
            = some g
          ∧ g.length = 17 * min (min k 2) 20 ∧ 17 ∣ g.length :=
  have h : ∀ w ∈ [List.replicate 400 (0 : ℚ), List.replicate 400 (1 / 2)],
      w.length = WINDOW_SIZE := by
    intro w hw
    simp only [List.mem_cons, List.not_mem_nil, or_false] at hw
    rcases hw with rfl | rfl <;> exact List.length_replicate _ _
  ⟨h, (window_400_fills_one_slot _ h).1, (window_400_fills_one_slot _ h).2.1⟩

/-- C10: on a non-empty input the compressor returns the averaged point of every maximal run
of consecutive points with equal `x` except the last run, in order; so it returns one point
fewer than there are runs, nothing when all points share one `x`, and always fewer points
than it was given.  The averaged point of a run has the `x` of the run and, for `LONG` values
and runs of at most `2 ^ 20` points, the rounded arithmetic mean of its `y`. -/
theorem compress_emits_all_runs_but_last (points : List POINT) (h : points ≠ []) :
    ∃ out, compress_points_with_duplicate_x points = some out
      ∧ out = (runs_of_equal_x points).dropLast.map run_point
      ∧ out.length = (runs_of_equal_x points).length - 1
      ∧ ((∀ p ∈ points, ∀ q ∈ points, p.x = q.x) → out = [])
      ∧ out.length < points.length
      ∧ (∀ g ∈ runs_of_equal_x points, (∀ p ∈ g, (run_point g).x = p.x)
          ∧ ((∀ p ∈ g, |p.y| ≤ 2 ^ 31) → g.length ≤ 2 ^ 20 →
              (run_point g).y = lround (((g.map POINT.y).sum : ℚ) / (g.length : ℚ)))) := by
  cases points with
  | nil => exact absurd rfl h
  | cons p ps =>
    refine ⟨_, compress_eq_runs p ps, rfl, by simp, ?_, ?_, ?_⟩
    · intro hall
      rw [runs_of_equal_x_uniform p.x p ps (fun q hq => hall q hq p (List.mem_cons_self _ _))]
      rfl
    · have h1 := length_runs_of_equal_x_le (p :: ps)
      obtain ⟨g, gs, hg⟩ := runs_of_equal_x_cons p ps
      rw [hg] at h1 ⊢
      simp at h1 ⊢
      omega
    · intro g hg
      obtain ⟨hne, hu⟩ := runs_of_equal_x_uniform_of_mem (p :: ps) g hg
      exact ⟨run_point_x g hu, fun hy hl => run_point_y_exact g hne hy hl⟩

theorem compress_emits_all_runs_but_last_witness :
    ([⟨0, 2⟩, ⟨0, 4⟩, ⟨1, 10⟩, ⟨1, 11⟩, ⟨0, 5⟩] : List POINT) ≠ []
      ∧ ∃ out, compress_points_with_duplicate_x [⟨0, 2⟩, ⟨0, 4⟩, ⟨1, 10⟩, ⟨1, 11⟩, ⟨0, 5⟩]
          = some out
        ∧ out = (runs_of_equal_x [⟨0, 2⟩, ⟨0, 4⟩, ⟨1, 10⟩, ⟨1, 11⟩, ⟨0, 5⟩]).dropLast.map
            run_point
        ∧ out.length = (runs_of_equal_x [⟨0, 2⟩, ⟨0, 4⟩, ⟨1, 10⟩, ⟨1, 11⟩, ⟨0, 5⟩]).length - 1
        ∧ out.length
            < ([⟨0, 2⟩, ⟨0, 4⟩, ⟨1, 10⟩, ⟨1, 11⟩, ⟨0, 5⟩] : List POINT).length :=
  ⟨by decide,
    (compress_emits_all_runs_but_last _ (by decide)).elim
      (fun out ho => ⟨out, ho.1, ho.2.1, ho.2.2.1, ho.2.2.2.2.1⟩)⟩

end Overlay
